import Mathlib

/-!
# AprilTag distance calculator: the tag-tracking loop of `realsense_apriltag.cpp`

A shallow embedding of the per-frame bookkeeping in `main`:

* the three `std::map`s `lru`, `outputStrings` and `vectorsFromCamera`,
  as key-sorted association lists (the iteration order of `std::map`);
* the detection loop (lines 134-144) and the aging/eviction loop (lines 149-175);
* the display counter `lastCount` (line 182);
* the angle functions `standardRad` and `wRo_to_euler` (lines 35-52).

Modelling decisions.

* `double` coordinates are exact rationals; `Eigen::Vector3d::norm()` and the content of a
  default-constructed `Eigen::Vector3d` (what `vectorsFromCamera[k]` yields for a key that
  was never stored) are library behaviour and are taken as parameters (`Eigen`).
* A detection is taken after `getDetectionString` has run on it: it carries the id, the
  translation that `getRelativeTranslationRotation` wrote and the string that was built.
* The aging loop erases from `lru` through the iterator it is walking (line 160) and then
  increments that iterator (line 150), which the language leaves undefined. `agingLoop` is
  the walk over the entries that `lru` holds when the loop starts, in key order: it is what
  the loop does in a pass that erases no entry (each iteration then reads the key and value
  of its own entry and only changes that value). `agingLoopStrict`, `frameStrict` and
  `runStrict` are the loop, the frame and the run with that undefined behaviour made
  explicit: their result is `none` from the first pass that erases an entry. What depends
  on how often and in which order the entries are visited (ttl values, the number of
  printed lines, the size of the table) is stated on the strict definitions; what does not
  (the reference entry is never erased, the content of a printed line, the recorded
  vectors, the display counter) is stated on the walk.
* `standardRad` and `wRo_to_euler` are written over an ordered field with a floor; `fmod`
  is the exact truncated remainder, and `atan2`, `cos`, `sin` are parameters (`Libm`).
* `int` values stay far from the 32-bit limits (`lru` values are at most 20), so they are
  unbounded integers.
-/

namespace AprilTag

/-! ## `std::map<int, β>` -/

/-- The key order of the entries of a `std::map<int, β>`: strictly ascending. -/
def KeysAscending {β : Type} (l : List (Int × β)) : Prop :=
  l.Pairwise (fun a b => a.1 < b.1)

/-- Lookup in an entry list. -/
def findEntries {β : Type} : List (Int × β) → Int → Option β
  | [], _ => none
  | (k', v') :: l, k => if k = k' then some v' else findEntries l k

/-- Insert-or-assign into a key-sorted entry list (`m[k] = v`). -/
def insertEntries {β : Type} : List (Int × β) → Int → β → List (Int × β)
  | [], k, v => [(k, v)]
  | (k', v') :: l, k, v =>
    if k < k' then (k, v) :: (k', v') :: l
    else if k = k' then (k, v) :: l
    else (k', v') :: insertEntries l k v

/-- Removal of a key from an entry list (`m.erase(k)`). -/
def eraseEntries {β : Type} : List (Int × β) → Int → List (Int × β)
  | [], _ => []
  | (k', v') :: l, k => if k = k' then l else (k', v') :: eraseEntries l k

theorem insertEntries_head_ge {β : Type} (l : List (Int × β)) (k : Int) (v : β) (b : Int)
    (hb : b < k) (hl : ∀ e ∈ l, b < e.1) : ∀ e ∈ insertEntries l k v, b < e.1 := by
  induction l with
  | nil => intro e he; simp [insertEntries] at he; subst he; exact hb
  | cons a l ih =>
    intro e he
    simp only [insertEntries] at he
    split_ifs at he with h1 h2
    · rcases List.mem_cons.1 he with rfl | he
      · exact hb
      · exact hl e he
    · rcases List.mem_cons.1 he with rfl | he
      · exact hb
      · exact hl e (List.mem_cons_of_mem _ he)
    · rcases List.mem_cons.1 he with rfl | he
      · exact hl _ (List.mem_cons_self _ _)
      · exact ih (fun e he => hl e (List.mem_cons_of_mem _ he)) e he

theorem insertEntries_sorted {β : Type} (l : List (Int × β)) (k : Int) (v : β)
    (h : KeysAscending l) : KeysAscending (insertEntries l k v) := by
  induction l with
  | nil => simp [insertEntries, KeysAscending]
  | cons a l ih =>
    unfold KeysAscending at h ih ⊢
    obtain ⟨ha, hl⟩ := List.pairwise_cons.1 h
    simp only [insertEntries]
    split_ifs with h1 h2
    · refine List.pairwise_cons.2 ⟨?_, h⟩
      intro e he
      rcases List.mem_cons.1 he with rfl | he
      · exact h1
      · exact lt_trans h1 (ha e he)
    · refine List.pairwise_cons.2 ⟨?_, hl⟩
      intro e he
      simpa [h2] using ha e he
    · refine List.pairwise_cons.2 ⟨?_, ih hl⟩
      have hlt : a.1 < k := lt_of_le_of_ne (not_lt.1 h1) (fun h => h2 h.symm)
      exact insertEntries_head_ge l k v a.1 hlt ha

theorem eraseEntries_subset {β : Type} (l : List (Int × β)) (k : Int) :
    ∀ e ∈ eraseEntries l k, e ∈ l := by
  induction l with
  | nil => intro e he; simp [eraseEntries] at he
  | cons a l ih =>
    intro e he
    simp only [eraseEntries] at he
    split_ifs at he with h1
    · exact List.mem_cons_of_mem _ he
    · rcases List.mem_cons.1 he with rfl | he
      · exact List.mem_cons_self _ _
      · exact List.mem_cons_of_mem _ (ih e he)

theorem eraseEntries_sorted {β : Type} (l : List (Int × β)) (k : Int)
    (h : KeysAscending l) : KeysAscending (eraseEntries l k) := by
  induction l with
  | nil => simp [eraseEntries, KeysAscending]
  | cons a l ih =>
    unfold KeysAscending at h ih ⊢
    obtain ⟨ha, hl⟩ := List.pairwise_cons.1 h
    simp only [eraseEntries]
    split_ifs with h1
    · exact hl
    · exact List.pairwise_cons.2 ⟨fun e he => ha e (eraseEntries_subset l k e he), ih hl⟩

/-- A `std::map<int, β>`: its entries in iteration order, keys strictly ascending. -/
structure Map (β : Type) where
  entries : List (Int × β)
  sorted : KeysAscending entries

namespace Map

/-- The empty map. -/
def empty {β : Type} : Map β := ⟨[], List.Pairwise.nil⟩

/-- Lookup `m.find(k)`. -/
def find {β : Type} (m : Map β) (k : Int) : Option β := findEntries m.entries k

/-- Assignment `m[k] = v`. -/
def insert {β : Type} (m : Map β) (k : Int) (v : β) : Map β :=
  ⟨insertEntries m.entries k v, insertEntries_sorted m.entries k v m.sorted⟩

/-- Removal `m.erase(k)`. -/
def erase {β : Type} (m : Map β) (k : Int) : Map β :=
  ⟨eraseEntries m.entries k, eraseEntries_sorted m.entries k m.sorted⟩

/-- Read access `m[k]`: the stored value, or, when `k` has no entry, a default-constructed
value `dflt` that is stored under `k` first. -/
def subscript {β : Type} (m : Map β) (k : Int) (dflt : β) : β × Map β :=
  match m.find k with
  | some v => (v, m)
  | none => (dflt, m.insert k dflt)

/-- The keys of the map, ascending. -/
def keys {β : Type} (m : Map β) : List Int := m.entries.map Prod.fst

end Map

/-! ## Geometry and output -/

/-- An `Eigen::Vector3d`. -/
structure Vector3d where
  x : ℚ
  y : ℚ
  z : ℚ
  deriving DecidableEq

/-- Component-wise difference (`operator-` of `Eigen::Vector3d`). -/
def Vector3d.sub (a b : Vector3d) : Vector3d := ⟨a.x - b.x, a.y - b.y, a.z - b.z⟩

instance : Sub Vector3d := ⟨Vector3d.sub⟩

/-- The sum of the squared components. -/
def Vector3d.squaredNorm (v : Vector3d) : ℚ := v.x * v.x + v.y * v.y + v.z * v.z

/-- The parts of the Eigen library the loop relies on: `norm()` and the content of a
default-constructed `Vector3d`. -/
structure Eigen where
  norm : Vector3d → ℚ
  uninitialized : Vector3d

/-- What it means for a number `d` to be the Euclidean norm of `v`. -/
def IsEuclideanNorm (d : ℚ) (v : Vector3d) : Prop := 0 ≤ d ∧ d * d = v.squaredNorm

/-- One element of `detections`, after `getDetectionString` has run on it: the id, the
translation written by `getRelativeTranslationRotation`, and the returned string. -/
structure TagDetection where
  id : Int
  translation : Vector3d
  description : String

/-- What the aging loop writes to `cout`. -/
inductive Output where
  /-- The line "Reference tag is out of sight, falling back on last known value." -/
  | referenceLost : Output
  /-- The line "Id: key, distance=d m, x=, y=, z=". -/
  | line (id : Int) (distance x y z : ℚ) : Output
  deriving DecidableEq

/-- Whether an output is a relative-position line for id `k`. -/
def Output.isLineFor (k : Int) : Output → Bool
  | Output.referenceLost => false
  | Output.line id _ _ _ _ => decide (id = k)

/-- Whether an output is the Reference-Lost message. -/
def Output.isReferenceLost : Output → Bool
  | Output.referenceLost => true
  | Output.line _ _ _ _ _ => false

/-! ## Angles

The angle functions are written over any ordered field with a floor function, so that the
same definitions can be run on rationals and read on reals. -/

/-- `const double PI = 3.14159265358979323846;` -/
def PI (α : Type) [LinearOrderedField α] : α := 3.14159265358979323846

/-- `const double TWOPI = 2.0*PI;` -/
def TWOPI (α : Type) [LinearOrderedField α] : α := 2.0 * PI α

/-- Rounding toward zero. -/
def truncate {α : Type} [LinearOrderedField α] [FloorRing α] (q : α) : Int :=
  if 0 ≤ q then Int.floor q else Int.ceil q

/-- The C library `fmod`, as the exact truncated remainder: `x - n*y`, where `n` is `x/y`
rounded toward zero. -/
def fmod {α : Type} [LinearOrderedField α] [FloorRing α] (x y : α) : α :=
  x - (truncate (x / y) : α) * y

/-- The function `standardRad` (lines 36-43). -/
def standardRad {α : Type} [LinearOrderedField α] [FloorRing α] (t : α) : α :=
  if t ≥ 0 then fmod (t + PI α) (TWOPI α) - PI α
  else fmod (t - PI α) (-(TWOPI α)) + PI α

/-- The C library functions that `wRo_to_euler` calls. -/
structure Libm (α : Type) where
  atan2 : α → α → α
  cos : α → α
  sin : α → α

/-- An `Eigen::Matrix3d`, by row and column. -/
def Matrix3d (α : Type) : Type := Fin 3 → Fin 3 → α

/-- The 3x3 identity matrix. -/
def Matrix3d.identity (α : Type) [LinearOrderedField α] : Matrix3d α :=
  fun i j => if i = j then 1 else 0

/-- The function `wRo_to_euler` (lines 46-52); the result is `(yaw, pitch, roll)`. -/
def wRo_to_euler {α : Type} [LinearOrderedField α] [FloorRing α] (M : Libm α)
    (wRo : Matrix3d α) : α × α × α :=
  let yaw := standardRad (M.atan2 (wRo 1 0) (wRo 0 0))
  let c := M.cos yaw
  let s := M.sin yaw
  let pitch := standardRad (M.atan2 (-(wRo 2 0)) (wRo 0 0 * c + wRo 1 0 * s))
  let roll := standardRad (M.atan2 (wRo 0 2 * s - wRo 1 2 * c) (-(wRo 0 1) * s + wRo 1 1 * c))
  (yaw, pitch, roll)

/-! ## The loop of `main` -/

/-- `int smoothingFrames = 20;` -/
def smoothingFrames : Int := 20

/-- `int smoothingDisplay = 10;` -/
def smoothingDisplay : Int := 10

/-- `int referenceTagId = 2;` -/
def referenceTagId : Int := 2

/-- The variables of `main` that live across loop iterations. -/
structure State where
  lru : Map Int
  outputStrings : Map String
  vectorsFromCamera : Map Vector3d
  lastCount : Int

/-- The state when the `while` loop is entered: empty maps, `lastCount = 0`. -/
def State.initial : State := ⟨Map.empty, Map.empty, Map.empty, 0⟩

/-- The body of the detection loop (lines 135-143) for one detection. -/
def upsert (s : State) (d : TagDetection) : State :=
  { s with
    outputStrings := s.outputStrings.insert d.id d.description
    lru := s.lru.insert d.id smoothingFrames
    vectorsFromCamera := s.vectorsFromCamera.insert d.id d.translation }

/-- The detection loop (lines 134-144). -/
def detectionLoop (s : State) (detections : List TagDetection) : State :=
  detections.foldl upsert s

/-- The report branch (lines 165-171): both `vectorsFromCamera[...]` reads and the line. -/
def report (E : Eigen) (s : State) (key : Int) : State × Output :=
  let a := s.vectorsFromCamera.subscript key E.uninitialized
  let b := a.2.subscript referenceTagId E.uninitialized
  let newPosition := a.1 - b.1
  ({ s with vectorsFromCamera := b.2 },
    Output.line key (E.norm newPosition) newPosition.x newPosition.y newPosition.z)

/-- The body of the aging loop (lines 151-174) for the entry `(key, value)`. -/
def agingBody (E : Eigen) (acc : State × List Output) (kv : Int × Int) :
    State × List Output :=
  let s := acc.1
  let key := kv.1
  let value := kv.2
  if value < 0 then
    if key = referenceTagId then
      if s.lastCount = 0 then (s, acc.2 ++ [Output.referenceLost]) else acc
    else
      ({ s with lru := s.lru.erase key, outputStrings := s.outputStrings.erase key }, acc.2)
  else
    let r := if s.lastCount = 0 then ((report E s key).1, acc.2 ++ [(report E s key).2]) else acc
    ({ r.1 with lru := r.1.lru.insert key (value - 1) }, r.2)

/-- The walk of the aging loop (lines 149-175) over the entries that `lru` holds when the
loop starts, in key order. A pass that erases no entry is exactly this walk; for a pass that
erases one, see `agingLoopStrict`. -/
def agingLoop (E : Eigen) (s : State) : State × List Output :=
  s.lru.entries.foldl (agingBody E) (s, [])

/-- One iteration of the `while` loop: detection loop, aging loop, `lastCount` update
(line 182; `%` truncates). Returns the next state and what the iteration printed. -/
def frame (E : Eigen) (s : State) (detections : List TagDetection) : State × List Output :=
  let r := agingLoop E (detectionLoop s detections)
  ({ r.1 with lastCount := Int.tmod (r.1.lastCount + 1) smoothingDisplay }, r.2)

/-- The state at the start of frame `n` (frames numbered from 0), for the detection sets
`frames 0, frames 1, ...`. -/
def stateBefore (E : Eigen) (frames : Nat → List TagDetection) : Nat → State
  | 0 => State.initial
  | n + 1 => (frame E (stateBefore E frames n) (frames n)).1

/-- The state after frame `n` has been processed. -/
def stateAfter (E : Eigen) (frames : Nat → List TagDetection) (n : Nat) : State :=
  stateBefore E frames (n + 1)

/-- What frame `n` prints. -/
def outputOf (E : Eigen) (frames : Nat → List TagDetection) (n : Nat) : List Output :=
  (frame E (stateBefore E frames n) (frames n)).2

/-- Whether id `k` is among the detections of a frame. -/
def detected (k : Int) (detections : List TagDetection) : Prop :=
  k ∈ detections.map TagDetection.id

instance (k : Int) (detections : List TagDetection) : Decidable (detected k detections) := by
  unfold detected; infer_instance

/-! ## The loop with the undefined behaviour of line 160 -/

/-- The pass over the table `s.lru` reaches line 160: some entry has a negative ttl and is
not the reference entry. -/
def erasesEntry (s : State) : Prop :=
  ∃ e ∈ s.lru.entries, e.2 < 0 ∧ e.1 ≠ referenceTagId

instance (s : State) : Decidable (erasesEntry s) := by
  unfold erasesEntry; infer_instance

/-- The body of the aging loop followed by the `it++` of the loop header. After
`lru.erase(it)` the iterator `it` is invalid and incrementing it is undefined: `none`. -/
def agingBodyStrict (E : Eigen) (acc : Option (State × List Output)) (kv : Int × Int) :
    Option (State × List Output) :=
  match acc with
  | none => none
  | some a => if kv.2 < 0 ∧ kv.1 ≠ referenceTagId then none else some (agingBody E a kv)

/-- The aging loop (lines 149-175); `none` when its behaviour is undefined. -/
def agingLoopStrict (E : Eigen) (s : State) : Option (State × List Output) :=
  s.lru.entries.foldl (agingBodyStrict E) (some (s, []))

/-- One iteration of the `while` loop; `none` when its behaviour is undefined. -/
def frameStrict (E : Eigen) (s : State) (detections : List TagDetection) :
    Option (State × List Output) :=
  match agingLoopStrict E (detectionLoop s detections) with
  | none => none
  | some r => some ({ r.1 with lastCount := Int.tmod (r.1.lastCount + 1) smoothingDisplay }, r.2)

/-- The state at the start of frame `n`; `none` when an earlier frame had undefined
behaviour. -/
def runStrict (E : Eigen) (frames : Nat → List TagDetection) : Nat → Option State
  | 0 => some State.initial
  | n + 1 =>
    match runStrict E frames n with
    | none => none
    | some s => (frameStrict E s (frames n)).map Prod.fst

/-- What frame `n` prints; `none` when the behaviour of the run is undefined by then. -/
def outputStrict (E : Eigen) (frames : Nat → List TagDetection) (n : Nat) :
    Option (List Output) :=
  match runStrict E frames n with
  | none => none
  | some s => (frameStrict E s (frames n)).map Prod.snd

/-! ## Specification functions -/

/-- What one aging pass does to the ttl of id `k`: an absent or negative non-reference
entry ends absent, a negative reference entry is kept as it is, a non-negative entry is
decremented. -/
def agedTtl (k : Int) : Option Int → Option Int
  | none => none
  | some v => if v < 0 then (if k = referenceTagId then some v else none) else some (v - 1)

/-- The ttl of `k` between the two loops of a frame. -/
def ttlAfterDetection (s : State) (detections : List TagDetection) (k : Int) : Option Int :=
  if detected k detections then some smoothingFrames else s.lru.find k

/-- The translation of the last detection of `k` in a detection list, if any. -/
def lastTranslation (k : Int) : List TagDetection → Option Vector3d
  | [] => none
  | d :: ds =>
    match lastTranslation k ds with
    | some p => some p
    | none => if d.id = k then some d.translation else none

/-- The value that `vectorsFromCamera[k]` reads. -/
def readVector (E : Eigen) (m : Map Vector3d) (k : Int) : Vector3d :=
  (m.find k).getD E.uninitialized

/-- The relative-position line for `key`, from the positions `pos`. -/
def lineFor (E : Eigen) (pos : Int → Vector3d) (key : Int) : Output :=
  Output.line key (E.norm (pos key - pos referenceTagId))
    (pos key - pos referenceTagId).x (pos key - pos referenceTagId).y
    (pos key - pos referenceTagId).z

/-- What the aging loop prints for one entry, given `lastCount` and the positions. -/
def entryOutput (E : Eigen) (lastCount : Int) (pos : Int → Vector3d) (kv : Int × Int) :
    List Output :=
  if kv.2 < 0 then
    if kv.1 = referenceTagId ∧ lastCount = 0 then [Output.referenceLost] else []
  else if lastCount = 0 then [lineFor E pos kv.1] else []

/-- Every id that has a ttl also has a stored vector. -/
def Recorded (s : State) : Prop :=
  ∀ k, (s.lru.find k).isSome = true → (s.vectorsFromCamera.find k).isSome = true

/-- The state of frame `n` between its two loops. -/
def afterDetection (E : Eigen) (frames : Nat → List TagDetection) (n : Nat) : State :=
  detectionLoop (stateBefore E frames n) (frames n)

/-- The translation recorded for `k` by the detections of the frames `0 .. n`: that of the
last detection of `k` in the last of these frames that detects `k`, if there is one. -/
def lastRecorded (frames : Nat → List TagDetection) (k : Int) : Nat → Option Vector3d
  | 0 => lastTranslation k (frames 0)
  | n + 1 =>
    match lastTranslation k (frames (n + 1)) with
    | some p => some p
    | none => lastRecorded frames k n

/-- The maps `lru` and `outputStrings` have the same keys. -/
def KeysAgree (s : State) : Prop :=
  ∀ k, (s.lru.find k).isSome = (s.outputStrings.find k).isSome

/-- The ids detected in the frames `lo .. n`, with repetitions. -/
def idsDetected (frames : Nat → List TagDetection) (lo n : Nat) : List Int :=
  ((List.range (n + 1)).filter (fun m => decide (lo ≤ m))).flatMap
    (fun m => (frames m).map TagDetection.id)

/-- The number of distinct ids detected in the frames `lo .. n`. -/
def distinctDetected (frames : Nat → List TagDetection) (lo n : Nat) : Nat :=
  (idsDetected frames lo n).dedup.length

/-! ## Concrete scenarios -/

/-- An exact model of the library on the inputs used below: square root of the squared norm
(exact on perfect squares), and a zero default vector. -/
def exactEigen : Eigen := ⟨fun v => Rat.sqrt v.squaredNorm, ⟨0, 0, 0⟩⟩

/-- Marker 5 at `(1,0,1)`. -/
def det5 : TagDetection := ⟨5, ⟨1, 0, 1⟩, "Id: 5"⟩

/-- Reference marker 2 at `(0,0,1)`. -/
def det2 : TagDetection := ⟨2, ⟨0, 0, 1⟩, "Id: 2"⟩

/-- Marker 5 seen in frame 0 only. -/
def onlyFirst5 (n : Nat) : List TagDetection := if n = 0 then [det5] else []

/-- Reference marker 2 seen in frame 0 only. -/
def onlyFirst2 (n : Nat) : List TagDetection := if n = 0 then [det2] else []

/-- The scenario of the specification: markers 2 and 5 in frame 0, then marker 5 alone. -/
def scenario (n : Nat) : List TagDetection := if n = 0 then [det2, det5] else [det5]

/-- Marker 7 at `(0,1,1)`. -/
def det7 : TagDetection := ⟨7, ⟨0, 1, 1⟩, "Id: 7"⟩

/-- Marker 5 seen in frame 0 only, markers 2 and 7 seen in frame 5 only. -/
def staggered (n : Nat) : List TagDetection :=
  if n = 0 then [det5] else if n = 5 then [det2, det7] else []

/-- Marker 5 seen in frame 0 only, marker 7 seen in frame 21 only. -/
def late7 (n : Nat) : List TagDetection :=
  if n = 0 then [det5] else if n = 21 then [det7] else []

/-- Markers 2 and 5 seen in frame 0 only. -/
def bothFirst (n : Nat) : List TagDetection := if n = 0 then [det2, det5] else []

/-- A rational stand-in for the C library with the exact values at the arguments used for
the identity matrix: `atan2(0, 1) = 0`, `cos(0) = 1`, `sin(0) = 0`. -/
def smallAngleLibm : Libm ℚ := ⟨fun y x => y / x, fun x => 1 - x * x / 2, fun x => x⟩

/-! ## Facts about `std::map` -/

theorem Map.ext_entries {β : Type} (m m' : Map β) (h : m.entries = m'.entries) : m = m' := by
  cases m; cases m'; cases h; rfl

theorem findEntries_insertEntries {β : Type} (l : List (Int × β)) (k : Int) (v : β) (k' : Int) :
    findEntries (insertEntries l k v) k' = if k' = k then some v else findEntries l k' := by
  induction l with
  | nil => simp [insertEntries, findEntries]
  | cons a l ih =>
    obtain ⟨ka, va⟩ := a
    simp only [insertEntries]
    split_ifs with h1 h2 h3 h4 h5
    all_goals simp only [findEntries]
    all_goals try simp only [ih]
    all_goals split_ifs <;> first | rfl | omega

theorem findEntries_none_of_lt {β : Type} (l : List (Int × β)) (k : Int)
    (h : ∀ e ∈ l, k < e.1) : findEntries l k = none := by
  induction l with
  | nil => rfl
  | cons a l ih =>
    obtain ⟨ka, va⟩ := a
    have h1 : k < ka := h (ka, va) (List.mem_cons_self _ _)
    simp only [findEntries]
    rw [if_neg (ne_of_lt h1)]
    exact ih (fun e he => h e (List.mem_cons_of_mem _ he))

theorem findEntries_tail_none {β : Type} (a : Int × β) (l : List (Int × β))
    (h : KeysAscending (a :: l)) : findEntries l a.1 = none :=
  findEntries_none_of_lt l a.1 (List.pairwise_cons.1 h).1

theorem findEntries_eraseEntries {β : Type} (l : List (Int × β)) (k : Int) (k' : Int)
    (h : KeysAscending l) :
    findEntries (eraseEntries l k) k' = if k' = k then none else findEntries l k' := by
  induction l with
  | nil => simp [eraseEntries, findEntries]
  | cons a l ih =>
    obtain ⟨ka, va⟩ := a
    have hl : KeysAscending l := (List.pairwise_cons.1 h).2
    have hn : findEntries l ka = none := findEntries_tail_none (ka, va) l h
    simp only [eraseEntries]
    by_cases h1 : k = ka
    · subst h1
      rw [if_pos rfl]
      by_cases h2 : k' = k
      · subst h2; simp [hn]
      · simp [findEntries, h2]
    · rw [if_neg h1]
      simp only [findEntries, ih hl]
      by_cases h2 : k' = ka
      · subst h2
        have : ¬ k' = k := fun h => h1 h.symm
        simp [this]
      · simp [h2]

theorem insertEntries_idem {β : Type} (l : List (Int × β)) (k : Int) (v : β) :
    insertEntries (insertEntries l k v) k v = insertEntries l k v := by
  induction l with
  | nil => simp [insertEntries]
  | cons a l ih =>
    obtain ⟨ka, va⟩ := a
    simp only [insertEntries]
    split_ifs with h1 h2
    · simp [insertEntries]
    · simp [insertEntries]
    · simp [insertEntries, h1, h2, ih]

theorem Map.find_insert {β : Type} (m : Map β) (k : Int) (v : β) (k' : Int) :
    (m.insert k v).find k' = if k' = k then some v else m.find k' :=
  findEntries_insertEntries m.entries k v k'

theorem Map.find_erase {β : Type} (m : Map β) (k k' : Int) :
    (m.erase k).find k' = if k' = k then none else m.find k' :=
  findEntries_eraseEntries m.entries k k' m.sorted

theorem Map.insert_idem {β : Type} (m : Map β) (k : Int) (v : β) :
    (m.insert k v).insert k v = m.insert k v :=
  Map.ext_entries _ _ (insertEntries_idem m.entries k v)

theorem mem_keys_iff_findEntries {β : Type} (l : List (Int × β)) (k : Int) :
    k ∈ l.map Prod.fst ↔ (findEntries l k).isSome = true := by
  induction l with
  | nil => simp [findEntries]
  | cons a l ih =>
    obtain ⟨ka, va⟩ := a
    simp only [List.map_cons, List.mem_cons, findEntries, ih]
    by_cases h : k = ka
    · simp [h]
    · simp [h]

theorem Map.mem_keys_iff {β : Type} (m : Map β) (k : Int) :
    k ∈ m.keys ↔ (m.find k).isSome = true :=
  mem_keys_iff_findEntries m.entries k

theorem Map.mem_keys_of_find {β : Type} (m : Map β) (k : Int) (v : β) (h : m.find k = some v) :
    k ∈ m.keys := by
  rw [Map.mem_keys_iff, h]; rfl

theorem Map.not_mem_keys_of_find {β : Type} (m : Map β) (k : Int) (h : m.find k = none) :
    k ∉ m.keys := by
  rw [Map.mem_keys_iff, h]; simp

/-! ## The detection loop -/

theorem detectionLoop_cons (s : State) (d : TagDetection) (ds : List TagDetection) :
    detectionLoop s (d :: ds) = detectionLoop (upsert s d) ds := rfl

theorem detectionLoop_lastCount (s : State) (ds : List TagDetection) :
    (detectionLoop s ds).lastCount = s.lastCount := by
  induction ds generalizing s with
  | nil => rfl
  | cons d ds ih => rw [detectionLoop_cons, ih]; rfl

theorem detectionLoop_lru (s : State) (ds : List TagDetection) (k : Int) :
    (detectionLoop s ds).lru.find k = ttlAfterDetection s ds k := by
  induction ds generalizing s with
  | nil => simp [detectionLoop, ttlAfterDetection, detected]
  | cons d ds ih =>
    rw [detectionLoop_cons, ih]
    simp only [ttlAfterDetection, detected, List.map_cons, List.mem_cons, upsert,
      Map.find_insert]
    by_cases h1 : k ∈ ds.map TagDetection.id
    · simp [h1]
    · by_cases h2 : k = d.id
      · simp [h2]
      · simp [h1, h2]

theorem detectionLoop_vectors (s : State) (ds : List TagDetection) (k : Int) :
    (detectionLoop s ds).vectorsFromCamera.find k =
      match lastTranslation k ds with
      | some p => some p
      | none => s.vectorsFromCamera.find k := by
  induction ds generalizing s with
  | nil => simp [detectionLoop, lastTranslation]
  | cons d ds ih =>
    rw [detectionLoop_cons, ih]
    simp only [lastTranslation]
    cases h : lastTranslation k ds with
    | some p => rfl
    | none =>
      simp only [upsert, Map.find_insert]
      by_cases h2 : k = d.id
      · simp [h2]
      · have h3 : ¬ d.id = k := fun h => h2 h.symm
        simp [h2, h3]

theorem lastTranslation_none_of_not_detected (k : Int) (ds : List TagDetection)
    (h : ¬ detected k ds) : lastTranslation k ds = none := by
  induction ds with
  | nil => rfl
  | cons d ds ih =>
    simp only [detected, List.map_cons, List.mem_cons, not_or] at h
    have h1 : ¬ d.id = k := fun e => h.1 e.symm
    simp [lastTranslation, ih h.2, h1]

theorem detected_of_lastTranslation (k : Int) (ds : List TagDetection) (p : Vector3d)
    (h : lastTranslation k ds = some p) : detected k ds := by
  by_contra hn
  rw [lastTranslation_none_of_not_detected k ds hn] at h
  exact Option.noConfusion h

/-! ## The aging loop -/

theorem readVector_subscript (E : Eigen) (m : Map Vector3d) (k : Int) :
    (m.subscript k E.uninitialized).1 = readVector E m k := by
  unfold Map.subscript readVector
  cases h : m.find k <;> rfl

theorem find_subscript (E : Eigen) (m : Map Vector3d) (k k' : Int) (p : Vector3d)
    (h : m.find k' = some p) : (m.subscript k E.uninitialized).2.find k' = some p := by
  unfold Map.subscript
  cases hk : m.find k with
  | some v => exact h
  | none =>
    simp only [Map.find_insert]
    have : ¬ k' = k := by
      intro e; subst e; rw [hk] at h; exact Option.noConfusion h
    simp [this, h]

theorem readVector_after_subscript (E : Eigen) (m : Map Vector3d) (k : Int) :
    readVector E (m.subscript k E.uninitialized).2 = readVector E m := by
  funext k'
  unfold Map.subscript readVector
  cases hk : m.find k with
  | some v => rfl
  | none =>
    simp only [Map.find_insert]
    by_cases h : k' = k
    · subst h; simp [hk]
    · simp [h]

theorem report_output (E : Eigen) (s : State) (key : Int) :
    (report E s key).2 = lineFor E (readVector E s.vectorsFromCamera) key := by
  simp only [report, lineFor, readVector_subscript, readVector_after_subscript]

theorem report_lru (E : Eigen) (s : State) (key : Int) : (report E s key).1.lru = s.lru := rfl

theorem report_outputStrings (E : Eigen) (s : State) (key : Int) :
    (report E s key).1.outputStrings = s.outputStrings := rfl

theorem report_lastCount (E : Eigen) (s : State) (key : Int) :
    (report E s key).1.lastCount = s.lastCount := rfl

theorem report_readVector (E : Eigen) (s : State) (key : Int) :
    readVector E (report E s key).1.vectorsFromCamera = readVector E s.vectorsFromCamera := by
  simp only [report, readVector_after_subscript]

theorem report_find (E : Eigen) (s : State) (key k : Int) (p : Vector3d)
    (h : s.vectorsFromCamera.find k = some p) :
    (report E s key).1.vectorsFromCamera.find k = some p := by
  simp only [report]
  exact find_subscript E _ _ _ p (find_subscript E _ _ _ p h)

theorem agingBody_lastCount (E : Eigen) (acc : State × List Output) (kv : Int × Int) :
    (agingBody E acc kv).1.lastCount = acc.1.lastCount := by
  unfold agingBody
  simp only
  split_ifs <;> rfl

theorem agingBody_lru (E : Eigen) (acc : State × List Output) (kv : Int × Int) (k : Int) :
    (agingBody E acc kv).1.lru.find k =
      if k = kv.1 then
        (if kv.2 < 0 then (if kv.1 = referenceTagId then acc.1.lru.find k else none)
          else some (kv.2 - 1))
      else acc.1.lru.find k := by
  unfold agingBody
  simp only
  split_ifs <;> simp_all [Map.find_erase, Map.find_insert, report_lru]

theorem agingBody_readVector (E : Eigen) (acc : State × List Output) (kv : Int × Int) :
    readVector E (agingBody E acc kv).1.vectorsFromCamera =
      readVector E acc.1.vectorsFromCamera := by
  unfold agingBody
  simp only
  split_ifs <;> simp [report_readVector]

theorem agingBody_find (E : Eigen) (acc : State × List Output) (kv : Int × Int) (k : Int)
    (p : Vector3d) (h : acc.1.vectorsFromCamera.find k = some p) :
    (agingBody E acc kv).1.vectorsFromCamera.find k = some p := by
  unfold agingBody
  simp only
  split_ifs <;> simp [report_find, h]

theorem agingBody_output (E : Eigen) (acc : State × List Output) (kv : Int × Int) :
    (agingBody E acc kv).2 =
      acc.2 ++ entryOutput E acc.1.lastCount (readVector E acc.1.vectorsFromCamera) kv := by
  unfold agingBody entryOutput
  simp only
  split_ifs <;> simp_all [report_output]

theorem agingFold_lastCount (E : Eigen) (l : List (Int × Int)) (acc : State × List Output) :
    (l.foldl (agingBody E) acc).1.lastCount = acc.1.lastCount := by
  induction l generalizing acc with
  | nil => rfl
  | cons a l ih => rw [List.foldl_cons, ih, agingBody_lastCount]

theorem agingFold_readVector (E : Eigen) (l : List (Int × Int)) (acc : State × List Output) :
    readVector E (l.foldl (agingBody E) acc).1.vectorsFromCamera =
      readVector E acc.1.vectorsFromCamera := by
  induction l generalizing acc with
  | nil => rfl
  | cons a l ih => rw [List.foldl_cons, ih, agingBody_readVector]

theorem agingFold_find (E : Eigen) (l : List (Int × Int)) (acc : State × List Output)
    (k : Int) (p : Vector3d) (h : acc.1.vectorsFromCamera.find k = some p) :
    (l.foldl (agingBody E) acc).1.vectorsFromCamera.find k = some p := by
  induction l generalizing acc with
  | nil => exact h
  | cons a l ih => rw [List.foldl_cons]; exact ih _ (agingBody_find E acc a k p h)

theorem agingFold_output (E : Eigen) (l : List (Int × Int)) (acc : State × List Output) :
    (l.foldl (agingBody E) acc).2 =
      acc.2 ++ l.flatMap (entryOutput E acc.1.lastCount (readVector E acc.1.vectorsFromCamera)) := by
  induction l generalizing acc with
  | nil => simp
  | cons a l ih =>
    rw [List.foldl_cons, ih, agingBody_output, agingBody_lastCount, agingBody_readVector,
      List.flatMap_cons, List.append_assoc]

theorem agingFold_lru (E : Eigen) (l : List (Int × Int)) (acc : State × List Output)
    (h : KeysAscending l) (k : Int) :
    (l.foldl (agingBody E) acc).1.lru.find k =
      match findEntries l k with
      | some v =>
        if v < 0 then (if k = referenceTagId then acc.1.lru.find k else none) else some (v - 1)
      | none => acc.1.lru.find k := by
  induction l generalizing acc with
  | nil => rfl
  | cons a l ih =>
    obtain ⟨ka, va⟩ := a
    have hl : KeysAscending l := (List.pairwise_cons.1 h).2
    have hn : findEntries l ka = none := findEntries_tail_none (ka, va) l h
    rw [List.foldl_cons, ih _ hl]
    simp only [findEntries]
    by_cases h1 : k = ka
    · subst h1
      rw [hn, if_pos rfl]
      simp [agingBody_lru]
    · rw [if_neg h1]
      simp [agingBody_lru, h1]

theorem agingLoop_lastCount (E : Eigen) (s : State) :
    (agingLoop E s).1.lastCount = s.lastCount :=
  agingFold_lastCount E s.lru.entries (s, [])

theorem agingLoop_lru (E : Eigen) (s : State) (k : Int) :
    (agingLoop E s).1.lru.find k = agedTtl k (s.lru.find k) := by
  unfold agingLoop
  rw [agingFold_lru E s.lru.entries (s, []) s.lru.sorted k]
  show _ = agedTtl k (findEntries s.lru.entries k)
  cases h : findEntries s.lru.entries k with
  | none => exact h
  | some v =>
    simp only [agedTtl]
    split_ifs
    · exact h
    · rfl
    · rfl

theorem agingLoop_output (E : Eigen) (s : State) :
    (agingLoop E s).2 =
      s.lru.entries.flatMap (entryOutput E s.lastCount (readVector E s.vectorsFromCamera)) := by
  unfold agingLoop
  rw [agingFold_output]
  rfl

theorem agingLoop_find (E : Eigen) (s : State) (k : Int) (p : Vector3d)
    (h : s.vectorsFromCamera.find k = some p) :
    (agingLoop E s).1.vectorsFromCamera.find k = some p :=
  agingFold_find E s.lru.entries (s, []) k p h

/-! ## One frame -/

theorem frame_lru (E : Eigen) (s : State) (ds : List TagDetection) (k : Int) :
    (frame E s ds).1.lru.find k = agedTtl k (ttlAfterDetection s ds k) := by
  show (agingLoop E (detectionLoop s ds)).1.lru.find k = _
  rw [agingLoop_lru, detectionLoop_lru]

theorem frame_output (E : Eigen) (s : State) (ds : List TagDetection) :
    (frame E s ds).2 =
      (detectionLoop s ds).lru.entries.flatMap
        (entryOutput E s.lastCount (readVector E (detectionLoop s ds).vectorsFromCamera)) := by
  show (agingLoop E (detectionLoop s ds)).2 = _
  rw [agingLoop_output, detectionLoop_lastCount]

theorem frame_lastCount (E : Eigen) (s : State) (ds : List TagDetection) :
    (frame E s ds).1.lastCount = Int.tmod (s.lastCount + 1) smoothingDisplay := by
  show Int.tmod ((agingLoop E (detectionLoop s ds)).1.lastCount + 1) smoothingDisplay = _
  rw [agingLoop_lastCount, detectionLoop_lastCount]

theorem frame_find_of_recorded (E : Eigen) (s : State) (ds : List TagDetection) (k : Int)
    (p : Vector3d) (h : (detectionLoop s ds).vectorsFromCamera.find k = some p) :
    (frame E s ds).1.vectorsFromCamera.find k = some p :=
  agingLoop_find E (detectionLoop s ds) k p h

theorem frame_find_of_not_detected (E : Eigen) (s : State) (ds : List TagDetection) (k : Int)
    (p : Vector3d) (hn : ¬ detected k ds) (h : s.vectorsFromCamera.find k = some p) :
    (frame E s ds).1.vectorsFromCamera.find k = some p := by
  apply frame_find_of_recorded
  rw [detectionLoop_vectors, lastTranslation_none_of_not_detected k ds hn]
  exact h

/-- Counting, in the output of an aging pass over key-sorted entries, the outputs that only
the entry of key `k` can produce. -/
theorem countP_flatMap_key (p : Output → Bool) (f : Int × Int → List Output) (k : Int)
    (hf : ∀ e : Int × Int, e.1 ≠ k → List.countP p (f e) = 0)
    (l : List (Int × Int)) (h : KeysAscending l) :
    List.countP p (l.flatMap f) =
      match findEntries l k with
      | some v => List.countP p (f (k, v))
      | none => 0 := by
  induction l with
  | nil => rfl
  | cons a l ih =>
    obtain ⟨ka, va⟩ := a
    have hl : KeysAscending l := (List.pairwise_cons.1 h).2
    have hn : findEntries l ka = none := findEntries_tail_none (ka, va) l h
    rw [List.flatMap_cons, List.countP_append, ih hl]
    simp only [findEntries]
    by_cases h1 : k = ka
    · subst h1
      rw [hn, if_pos rfl]
      rfl
    · rw [if_neg h1, hf (ka, va) (fun e => h1 e.symm), Nat.zero_add]

/-! ## Frame sequences -/

theorem stateAfter_eq (E : Eigen) (frames : Nat → List TagDetection) (n : Nat) :
    stateAfter E frames n = (frame E (stateBefore E frames n) (frames n)).1 := rfl

theorem stateBefore_succ (E : Eigen) (frames : Nat → List TagDetection) (n : Nat) :
    stateBefore E frames (n + 1) = stateAfter E frames n := rfl

theorem ttl_of_detected (E : Eigen) (frames : Nat → List TagDetection) (n : Nat) (k : Int)
    (h : detected k (frames n)) :
    (stateAfter E frames n).lru.find k = some (smoothingFrames - 1) := by
  rw [stateAfter_eq, frame_lru]
  simp [ttlAfterDetection, h, agedTtl, smoothingFrames]

theorem ttl_of_not_detected (E : Eigen) (frames : Nat → List TagDetection) (n : Nat) (k : Int)
    (h : ¬ detected k (frames (n + 1))) :
    (stateAfter E frames (n + 1)).lru.find k =
      agedTtl k ((stateAfter E frames n).lru.find k) := by
  rw [stateAfter_eq, frame_lru, stateBefore_succ]
  simp [ttlAfterDetection, h]

/-- The countdown of an id that is detected in frame `t` and then not detected. -/
theorem ttl_countdown (E : Eigen) (frames : Nat → List TagDetection) (k : Int) (t : Nat)
    (hdet : detected k (frames t)) (j : Nat) (hj : (j : Int) ≤ smoothingFrames)
    (hnot : ∀ i : Nat, 1 ≤ i → i ≤ j → ¬ detected k (frames (t + i))) :
    (stateAfter E frames (t + j)).lru.find k = some (smoothingFrames - 1 - j) := by
  induction j with
  | zero => simpa using ttl_of_detected E frames t k hdet
  | succ j ih =>
    have hj1 : (j : Int) ≤ smoothingFrames := by push_cast at hj; omega
    have h1 := ih hj1 (fun i h1 h2 => hnot i h1 (by omega))
    have h2 := ttl_of_not_detected E frames (t + j) k (hnot (j + 1) (by omega) (le_refl _))
    rw [← Nat.add_assoc, h2, h1]
    unfold smoothingFrames at hj ⊢
    push_cast at hj ⊢
    simp only [agedTtl]
    rw [if_neg (by omega)]
    congr 1
    omega

/-- The boundary of the countdown, on lookups: present with ttl `19 - j` after frame `t+j`
for `j <= 20`, absent after frame `t+21`. -/
theorem eviction_boundary_find (E : Eigen) (frames : Nat → List TagDetection) (k : Int) (t : Nat)
    (hk : k ≠ referenceTagId) (hdet : detected k (frames t))
    (hnot : ∀ j : Nat, 1 ≤ j → (j : Int) ≤ smoothingFrames + 1 → ¬ detected k (frames (t + j))) :
    (∀ j : Nat, (j : Int) ≤ smoothingFrames →
        (stateAfter E frames (t + j)).lru.find k = some (smoothingFrames - 1 - j)) ∧
      (stateAfter E frames (t + (smoothingFrames.toNat + 1))).lru.find k = none := by
  constructor
  · intro j hj
    exact ttl_countdown E frames k t hdet j hj (fun i h1 h2 => hnot i h1 (by omega))
  · have h20 : ((smoothingFrames.toNat : Nat) : Int) ≤ smoothingFrames := by decide
    have h1 := ttl_countdown E frames k t hdet smoothingFrames.toNat h20
      (fun i h1 h2 => hnot i h1 (by
        have : (smoothingFrames.toNat : Int) = smoothingFrames := by decide
        omega))
    have h2 := ttl_of_not_detected E frames (t + smoothingFrames.toNat) k
      (hnot (smoothingFrames.toNat + 1) (by omega) (by decide))
    rw [← Nat.add_assoc, h2, h1]
    have h3 : smoothingFrames - 1 - ((smoothingFrames.toNat : Nat) : Int) = -1 := by decide
    rw [h3]
    simp [agedTtl, hk]

/-- One aging pass keeps the reference entry. -/
theorem agingLoop_keeps_reference (E : Eigen) (s : State)
    (h : referenceTagId ∈ s.lru.keys) : referenceTagId ∈ (agingLoop E s).1.lru.keys := by
  rw [Map.mem_keys_iff] at h ⊢
  rw [agingLoop_lru]
  cases hv : s.lru.find referenceTagId with
  | none => rw [hv] at h; exact absurd h (by simp)
  | some v =>
    simp only [agedTtl]
    split_ifs <;> rfl

/-- One frame keeps the reference entry. -/
theorem frame_keeps_reference (E : Eigen) (s : State) (ds : List TagDetection)
    (h : referenceTagId ∈ s.lru.keys) : referenceTagId ∈ (frame E s ds).1.lru.keys := by
  rw [Map.mem_keys_iff] at h ⊢
  rw [frame_lru]
  unfold ttlAfterDetection
  by_cases hd : detected referenceTagId ds
  · rw [if_pos hd]; simp [agedTtl, smoothingFrames]
  · rw [if_neg hd]
    cases hv : s.lru.find referenceTagId with
    | none => rw [hv] at h; exact absurd h (by simp)
    | some v =>
      simp only [agedTtl]
      split_ifs <;> rfl

/-- Claim C2. Once `referenceTagId` is a key of `lru` it is a key after every later frame,
whatever is detected; and the aging loop keeps the reference entry whatever its ttl. -/
theorem C2_reference_never_evicted (E : Eigen) (frames : Nat → List TagDetection) (n m : Nat)
    (hnm : n ≤ m) (h : referenceTagId ∈ (stateAfter E frames n).lru.keys) :
    referenceTagId ∈ (stateAfter E frames m).lru.keys ∧
      ∀ s : State, referenceTagId ∈ s.lru.keys → referenceTagId ∈ (agingLoop E s).1.lru.keys := by
  refine ⟨?_, fun s hs => agingLoop_keeps_reference E s hs⟩
  induction m with
  | zero =>
    have : n = 0 := by omega
    subst this; exact h
  | succ m ih =>
    by_cases hm : n = m + 1
    · subst hm; exact h
    · have h1 := ih (by omega)
      rw [stateAfter_eq, stateBefore_succ]
      exact frame_keeps_reference E _ _ h1

/-- Claim C2 with the reference seen in frame 0 only: still a key after frame 100. -/
theorem C2_reference_never_evicted_witness :
    (0 ≤ 100 ∧ referenceTagId ∈ (stateAfter exactEigen onlyFirst2 0).lru.keys) ∧
    (referenceTagId ∈ (stateAfter exactEigen onlyFirst2 100).lru.keys ∧
      ∀ s : State, referenceTagId ∈ s.lru.keys →
        referenceTagId ∈ (agingLoop exactEigen s).1.lru.keys) :=
  have h1 : referenceTagId ∈ (stateAfter exactEigen onlyFirst2 0).lru.keys := by decide
  ⟨⟨by decide, h1⟩, C2_reference_never_evicted exactEigen onlyFirst2 0 100 (by decide) h1⟩

theorem lastCount_before (E : Eigen) (frames : Nat → List TagDetection) (n : Nat) :
    (stateBefore E frames n).lastCount = ((n % 10 : Nat) : Int) := by
  induction n with
  | zero => rfl
  | succ n ih =>
    show (frame E (stateBefore E frames n) (frames n)).1.lastCount = _
    rw [frame_lastCount, ih]
    unfold smoothingDisplay
    have h : (n % 10 : Nat) < 10 := Nat.mod_lt _ (by decide)
    rw [Int.tmod_eq_emod (by omega) (by decide)]
    omega

theorem outputOf_eq (E : Eigen) (frames : Nat → List TagDetection) (n : Nat) :
    outputOf E frames n =
      (afterDetection E frames n).lru.entries.flatMap
        (entryOutput E ((n % 10 : Nat) : Int)
          (readVector E (afterDetection E frames n).vectorsFromCamera)) := by
  unfold outputOf
  rw [frame_output, lastCount_before]
  rfl

theorem countP_referenceLost_entry (E : Eigen) (c : Int) (pos : Int → Vector3d) (e : Int × Int) :
    List.countP Output.isReferenceLost (entryOutput E c pos e) =
      if e.2 < 0 ∧ e.1 = referenceTagId ∧ c = 0 then 1 else 0 := by
  unfold entryOutput
  split_ifs <;> simp_all [Output.isReferenceLost, lineFor]

theorem countP_referenceLost (E : Eigen) (c : Int) (pos : Int → Vector3d) (m : Map Int) :
    List.countP Output.isReferenceLost (m.entries.flatMap (entryOutput E c pos)) =
      match m.find referenceTagId with
      | some v => if v < 0 ∧ c = 0 then 1 else 0
      | none => 0 := by
  rw [countP_flatMap_key Output.isReferenceLost (entryOutput E c pos) referenceTagId
    (fun e he => by rw [countP_referenceLost_entry]; simp [he]) m.entries m.sorted]
  show _ = (match findEntries m.entries referenceTagId with
    | some v => if v < 0 ∧ c = 0 then 1 else 0
    | none => 0)
  cases findEntries m.entries referenceTagId with
  | none => rfl
  | some v => simp [countP_referenceLost_entry]

/-- On the walk: how often frame `n` prints the Reference-Lost message. -/
theorem outputOf_referenceLost_count (E : Eigen) (frames : Nat → List TagDetection) (n : Nat) :
    List.countP Output.isReferenceLost (outputOf E frames n) =
      match (afterDetection E frames n).lru.find referenceTagId with
      | some v => if v < 0 ∧ n % 10 = 0 then 1 else 0
      | none => 0 := by
  rw [outputOf_eq, countP_referenceLost]
  cases (afterDetection E frames n).lru.find referenceTagId with
  | none => rfl
  | some v =>
    have h : (((n % 10 : Nat) : Int) = 0) ↔ n % 10 = 0 := by omega
    simp only [h]

/-! ## The report lines -/

theorem findEntries_of_mem {β : Type} (l : List (Int × β)) (h : KeysAscending l) (k : Int)
    (v : β) (hm : (k, v) ∈ l) : findEntries l k = some v := by
  induction l with
  | nil => simp at hm
  | cons a l ih =>
    obtain ⟨ka, va⟩ := a
    have hl : KeysAscending l := (List.pairwise_cons.1 h).2
    simp only [findEntries]
    rcases List.mem_cons.1 hm with he | he
    · simp only [Prod.mk.injEq] at he
      rw [if_pos he.1, he.2]
    · have hlt : ka < k := (List.pairwise_cons.1 h).1 (k, v) he
      rw [if_neg (ne_of_gt hlt)]
      exact ih hl he

/-- A relative-position line in the output of an entry is the line of that entry, printed
because `lastCount` is 0 and the ttl read is not negative. -/
theorem line_mem_entryOutput (E : Eigen) (c : Int) (pos : Int → Vector3d) (e : Int × Int)
    (k : Int) (d x y z : ℚ) (h : Output.line k d x y z ∈ entryOutput E c pos e) :
    e.1 = k ∧ 0 ≤ e.2 ∧ c = 0 ∧ Output.line k d x y z = lineFor E pos k := by
  unfold entryOutput at h
  split_ifs at h with h1 h2 h3
  · simp at h
  · simp at h
  · simp only [List.mem_singleton, lineFor, Output.line.injEq] at h
    obtain ⟨hk, hd, hx, hy, hz⟩ := h
    subst hk
    refine ⟨rfl, not_lt.1 h1, h3, ?_⟩
    simp only [lineFor, hd, hx, hy, hz]
  · simp at h

/-- A relative-position line printed by a frame: `lastCount` was 0, the id has a
non-negative ttl between the two loops, and the line is computed from the vectors held
between the two loops. -/
theorem line_mem_frame (E : Eigen) (s : State) (ds : List TagDetection) (k : Int)
    (d x y z : ℚ) (h : Output.line k d x y z ∈ (frame E s ds).2) :
    s.lastCount = 0 ∧ (∃ v, (detectionLoop s ds).lru.find k = some v ∧ 0 ≤ v) ∧
      Output.line k d x y z =
        lineFor E (readVector E (detectionLoop s ds).vectorsFromCamera) k := by
  rw [frame_output, List.mem_flatMap] at h
  obtain ⟨e, he, hl⟩ := h
  obtain ⟨h1, h2, h3, h4⟩ := line_mem_entryOutput E _ _ e k d x y z hl
  refine ⟨h3, ⟨e.2, ?_, h2⟩, h4⟩
  subst h1
  exact findEntries_of_mem _ (detectionLoop s ds).lru.sorted e.1 e.2 he

theorem line_mem_outputOf (E : Eigen) (frames : Nat → List TagDetection) (n : Nat) (k : Int)
    (d x y z : ℚ) (h : Output.line k d x y z ∈ outputOf E frames n) :
    n % 10 = 0 ∧ (∃ v, (afterDetection E frames n).lru.find k = some v ∧ 0 ≤ v) ∧
      Output.line k d x y z =
        lineFor E (readVector E (afterDetection E frames n).vectorsFromCamera) k := by
  obtain ⟨h1, h2, h3⟩ := line_mem_frame E _ _ k d x y z h
  rw [lastCount_before] at h1
  exact ⟨by omega, h2, h3⟩

/-- The line of `k` when both vectors are recorded. -/
theorem line_of_recorded (E : Eigen) (m : Map Vector3d) (k : Int) (a b : Vector3d)
    (d x y z : ℚ) (ha : m.find k = some a) (hb : m.find referenceTagId = some b)
    (h : Output.line k d x y z = lineFor E (readVector E m) k) :
    d = E.norm (a - b) ∧ x = (a - b).x ∧ y = (a - b).y ∧ z = (a - b).z := by
  simp only [lineFor, readVector, ha, hb, Option.getD_some, Output.line.injEq] at h
  exact ⟨h.2.1, h.2.2.1, h.2.2.2.1, h.2.2.2.2⟩

/-- A recorded vector stays recorded while its id is not detected. -/
theorem recorded_persists (E : Eigen) (frames : Nat → List TagDetection) (k : Int)
    (r : Vector3d) (t : Nat) (h : (stateAfter E frames t).vectorsFromCamera.find k = some r)
    (j : Nat) (hnot : ∀ m, t < m → m ≤ t + j → ¬ detected k (frames m)) :
    (stateAfter E frames (t + j)).vectorsFromCamera.find k = some r := by
  induction j with
  | zero => exact h
  | succ j ih =>
    rw [← Nat.add_assoc, stateAfter_eq, stateBefore_succ]
    exact frame_find_of_not_detected E _ _ k r (hnot (t + j + 1) (by omega) (by omega))
      (ih (fun m h1 h2 => hnot m h1 (by omega)))

theorem recorded_of_lastTranslation (E : Eigen) (frames : Nat → List TagDetection) (k : Int)
    (r : Vector3d) (t : Nat) (h : lastTranslation k (frames t) = some r) :
    (stateAfter E frames t).vectorsFromCamera.find k = some r := by
  rw [stateAfter_eq]
  apply frame_find_of_recorded
  rw [detectionLoop_vectors, h]

theorem afterDetection_of_lastTranslation (E : Eigen) (frames : Nat → List TagDetection)
    (k : Int) (p : Vector3d) (n : Nat) (h : lastTranslation k (frames n) = some p) :
    (afterDetection E frames n).vectorsFromCamera.find k = some p := by
  unfold afterDetection
  rw [detectionLoop_vectors, h]

/-- The vector of an id last detected in frame `t`, as read in a later frame `n`. -/
theorem afterDetection_of_earlier (E : Eigen) (frames : Nat → List TagDetection) (k : Int)
    (r : Vector3d) (t n : Nat) (htn : t < n) (h : lastTranslation k (frames t) = some r)
    (hnot : ∀ m, t < m → m ≤ n → ¬ detected k (frames m)) :
    (afterDetection E frames n).vectorsFromCamera.find k = some r := by
  obtain ⟨j, rfl⟩ : ∃ j, n = t + j + 1 := ⟨n - t - 1, by omega⟩
  unfold afterDetection
  rw [detectionLoop_vectors,
    lastTranslation_none_of_not_detected k _ (hnot (t + j + 1) (by omega) (le_refl _)),
    stateBefore_succ]
  exact recorded_persists E frames k r t (recorded_of_lastTranslation E frames k r t h) j
    (fun m h1 h2 => hnot m h1 (by omega))

theorem scenario_marker5 (n : Nat) : lastTranslation 5 (scenario n) = some ⟨1, 0, 1⟩ := by
  unfold scenario
  split_ifs <;> rfl

theorem scenario_reference_first : lastTranslation referenceTagId (scenario 0) = some ⟨0, 0, 1⟩ :=
  rfl

theorem scenario_reference_later (m : Nat) (h : 0 < m) :
    ¬ detected referenceTagId (scenario m) := by
  have hm : ¬ (m = 0) := by omega
  simp only [scenario, if_neg hm]
  decide

/-- Claim C4. If the reference was last detected in frame `t`, with translation `r`, and
marker `k` is detected in a later frame `n` with translation `p` (the translation of its
last detection in that frame), every line printed for `k` in frame `n` has
`(x, y, z) = p - r`. In the scenario (reference 2 at `(0,0,1)` in frame 0 only, marker 5 at
`(1,0,1)` in every frame) every line printed for marker 5, in any frame, is `(1,0,0)`. -/
theorem C4_origin_is_last_recorded_reference (E : Eigen) :
    (∀ (frames : Nat → List TagDetection) (t n : Nat) (k : Int) (r p : Vector3d),
      t < n → lastTranslation referenceTagId (frames t) = some r →
      (∀ m, t < m → m ≤ n → ¬ detected referenceTagId (frames m)) →
      lastTranslation k (frames n) = some p →
      ∀ d x y z : ℚ, Output.line k d x y z ∈ outputOf E frames n →
        x = (p - r).x ∧ y = (p - r).y ∧ z = (p - r).z) ∧
    (∀ (n : Nat) (d x y z : ℚ), Output.line 5 d x y z ∈ outputOf E scenario n →
      x = 1 ∧ y = 0 ∧ z = 0) := by
  have general : ∀ (frames : Nat → List TagDetection) (t n : Nat) (k : Int) (r p : Vector3d),
      t < n → lastTranslation referenceTagId (frames t) = some r →
      (∀ m, t < m → m ≤ n → ¬ detected referenceTagId (frames m)) →
      lastTranslation k (frames n) = some p →
      ∀ d x y z : ℚ, Output.line k d x y z ∈ outputOf E frames n →
        x = (p - r).x ∧ y = (p - r).y ∧ z = (p - r).z := by
    intro frames t n k r p htn hr hnot hp d x y z hl
    have ha := afterDetection_of_lastTranslation E frames k p n hp
    have hb := afterDetection_of_earlier E frames referenceTagId r t n htn hr hnot
    exact (line_of_recorded E _ k p r d x y z ha hb (line_mem_outputOf E frames n k d x y z hl).2.2).2
  refine ⟨general, ?_⟩
  intro n d x y z hl
  have hdiff : (⟨1, 0, 1⟩ - ⟨0, 0, 1⟩ : Vector3d) = ⟨1, 0, 0⟩ := by
    show Vector3d.sub _ _ = _
    simp [Vector3d.sub]
  by_cases hn : n = 0
  · subst hn
    have ha := afterDetection_of_lastTranslation E scenario 5 ⟨1, 0, 1⟩ 0 (scenario_marker5 0)
    have hb := afterDetection_of_lastTranslation E scenario referenceTagId ⟨0, 0, 1⟩ 0
      scenario_reference_first
    have h := (line_of_recorded E _ 5 _ _ d x y z ha hb
      (line_mem_outputOf E scenario 0 5 d x y z hl).2.2).2
    rw [hdiff] at h
    exact h
  · have h := general scenario 0 n 5 ⟨0, 0, 1⟩ ⟨1, 0, 1⟩ (by omega) scenario_reference_first
      (fun m h1 _ => scenario_reference_later m h1) (scenario_marker5 n) d x y z hl
    rw [hdiff] at h
    exact h

/-- Claim C4 in frame 30 of the scenario, ten frames after the reference ttl went negative:
the line printed for marker 5 is `(1,0,0)`. -/
theorem C4_origin_is_last_recorded_reference_witness :
    (0 < 30 ∧ lastTranslation referenceTagId (scenario 0) = some ⟨0, 0, 1⟩ ∧
      (∀ m, 0 < m → m ≤ 30 → ¬ detected referenceTagId (scenario m)) ∧
      lastTranslation 5 (scenario 30) = some ⟨1, 0, 1⟩ ∧
      (stateBefore exactEigen scenario 30).lru.find referenceTagId = some (-1) ∧
      Output.line 5 1 1 0 0 ∈ outputOf exactEigen scenario 30) ∧
    ((1 : ℚ) = ((⟨1, 0, 1⟩ - ⟨0, 0, 1⟩ : Vector3d)).x ∧
      (0 : ℚ) = ((⟨1, 0, 1⟩ - ⟨0, 0, 1⟩ : Vector3d)).y ∧
      (0 : ℚ) = ((⟨1, 0, 1⟩ - ⟨0, 0, 1⟩ : Vector3d)).z) :=
  have h3 : ∀ m, 0 < m → m ≤ 30 → ¬ detected referenceTagId (scenario m) :=
    fun m h _ => scenario_reference_later m h
  have h5 : Output.line 5 1 1 0 0 ∈ outputOf exactEigen scenario 30 := by
    with_unfolding_all decide
  ⟨⟨by decide, rfl, h3, rfl, by decide, h5⟩,
    (C4_origin_is_last_recorded_reference exactEigen).1 scenario 0 30 5 ⟨0, 0, 1⟩ ⟨1, 0, 1⟩
      (by decide) rfl h3 rfl 1 1 0 0 h5⟩

/-! ## Every tracked id has a recorded vector -/

theorem lastTranslation_of_detected (k : Int) (ds : List TagDetection) (h : detected k ds) :
    ∃ p, lastTranslation k ds = some p := by
  cases hl : lastTranslation k ds with
  | some p => exact ⟨p, rfl⟩
  | none =>
    exfalso
    induction ds with
    | nil => simp [detected] at h
    | cons d ds ih =>
      simp only [lastTranslation] at hl
      cases h2 : lastTranslation k ds with
      | some p => rw [h2] at hl; exact Option.noConfusion hl
      | none =>
        rw [h2] at hl
        by_cases h3 : d.id = k
        · rw [if_pos h3] at hl; exact Option.noConfusion hl
        · simp only [detected, List.map_cons, List.mem_cons] at h
          rcases h with h | h
          · exact h3 h.symm
          · exact ih h h2

theorem Recorded_detectionLoop (s : State) (ds : List TagDetection) (h : Recorded s) :
    Recorded (detectionLoop s ds) := by
  intro k hk
  rw [detectionLoop_lru] at hk
  rw [detectionLoop_vectors]
  by_cases hd : detected k ds
  · obtain ⟨p, hp⟩ := lastTranslation_of_detected k ds hd
    rw [hp]; rfl
  · rw [lastTranslation_none_of_not_detected k ds hd]
    simp only [ttlAfterDetection, if_neg hd] at hk
    exact h k hk

theorem isSome_of_agedTtl (k : Int) (o : Option Int) (h : (agedTtl k o).isSome = true) :
    o.isSome = true := by
  cases o with
  | none => exact h
  | some v => rfl

theorem Recorded_frame (E : Eigen) (s : State) (ds : List TagDetection) (h : Recorded s) :
    Recorded (frame E s ds).1 := by
  intro k hk
  rw [frame_lru, ← detectionLoop_lru] at hk
  have h1 := Recorded_detectionLoop s ds h k (isSome_of_agedTtl k _ hk)
  obtain ⟨p, hp⟩ := Option.isSome_iff_exists.1 h1
  rw [frame_find_of_recorded E s ds k p hp]
  rfl

theorem Recorded_stateBefore (E : Eigen) (frames : Nat → List TagDetection) (n : Nat) :
    Recorded (stateBefore E frames n) := by
  induction n with
  | zero => intro k hk; exact absurd hk (by simp [State.initial, Map.empty, Map.find, findEntries])
  | succ n ih => exact Recorded_frame E _ _ ih

theorem Recorded_afterDetection (E : Eigen) (frames : Nat → List TagDetection) (n : Nat) :
    Recorded (afterDetection E frames n) :=
  Recorded_detectionLoop _ _ (Recorded_stateBefore E frames n)

/-- Claim C5. In a frame whose aging pass finds the reference live (ttl >= 0), every printed
line, for marker `k`, carries `x, y, z` equal to the vector recorded for `k` minus the vector
recorded for the reference (`vectorsFromCamera` between the two loops), and as distance the
norm of that difference. In frame 0 of the scenario (reference 2 at `(0,0,1)`, marker 5 at
`(1,0,1)`) the one line of marker 5 is distance 1, `(1,0,0)`, for a `norm()` that is the
Euclidean norm at `(1,0,0)`. -/
theorem C5_relative_position (E : Eigen) :
    (∀ (frames : Nat → List TagDetection) (n : Nat) (k : Int) (v : Int) (d x y z : ℚ),
      (afterDetection E frames n).lru.find referenceTagId = some v → 0 ≤ v →
      Output.line k d x y z ∈ outputOf E frames n →
      ∃ a b, (afterDetection E frames n).vectorsFromCamera.find k = some a ∧
        (afterDetection E frames n).vectorsFromCamera.find referenceTagId = some b ∧
        x = (a - b).x ∧ y = (a - b).y ∧ z = (a - b).z ∧ d = E.norm (a - b)) ∧
    (IsEuclideanNorm (E.norm ⟨1, 0, 0⟩) ⟨1, 0, 0⟩ →
      (outputOf E scenario 0).filter (Output.isLineFor 5) = [Output.line 5 1 1 0 0]) := by
  constructor
  · intro frames n k v d x y z hv _ hl
    obtain ⟨_, ⟨w, hw, _⟩, hline⟩ := line_mem_outputOf E frames n k d x y z hl
    obtain ⟨a, ha⟩ := Option.isSome_iff_exists.1
      (Recorded_afterDetection E frames n k (by rw [hw]; rfl))
    obtain ⟨b, hb⟩ := Option.isSome_iff_exists.1
      (Recorded_afterDetection E frames n referenceTagId (by rw [hv]; rfl))
    obtain ⟨h1, h2, h3, h4⟩ := line_of_recorded E _ k a b d x y z ha hb hline
    exact ⟨a, b, ha, hb, h2, h3, h4, h1⟩
  · intro hnorm
    have hd : E.norm ⟨1, 0, 0⟩ = 1 := by
      obtain ⟨h0, h1⟩ := hnorm
      have h2 : E.norm ⟨1, 0, 0⟩ * E.norm ⟨1, 0, 0⟩ = 1 := by
        rw [h1]; simp [Vector3d.squaredNorm]
      rcases mul_self_eq_one_iff.1 h2 with h | h
      · exact h
      · rw [h] at h0; norm_num at h0
    have hentries : (afterDetection E scenario 0).lru.entries = [(2, 20), (5, 20)] := by
      show (detectionLoop State.initial [det2, det5]).lru.entries = _
      decide
    have h5 : readVector E (afterDetection E scenario 0).vectorsFromCamera 5 = ⟨1, 0, 1⟩ := rfl
    have h2 : readVector E (afterDetection E scenario 0).vectorsFromCamera referenceTagId
        = ⟨0, 0, 1⟩ := rfl
    have hdiff : (⟨1, 0, 1⟩ - ⟨0, 0, 1⟩ : Vector3d) = ⟨1, 0, 0⟩ := by
      show Vector3d.sub _ _ = _
      simp [Vector3d.sub]
    rw [outputOf_eq, hentries]
    simp [entryOutput, lineFor, h5, h2, hdiff, hd, Output.isLineFor]

/-- Claim C5 in frame 0 of the scenario, with the exact library model. -/
theorem C5_relative_position_witness :
    ((afterDetection exactEigen scenario 0).lru.find referenceTagId = some 20 ∧ (0 : Int) ≤ 20 ∧
      Output.line 5 1 1 0 0 ∈ outputOf exactEigen scenario 0 ∧
      IsEuclideanNorm (exactEigen.norm ⟨1, 0, 0⟩) ⟨1, 0, 0⟩) ∧
    ((∃ a b, (afterDetection exactEigen scenario 0).vectorsFromCamera.find 5 = some a ∧
        (afterDetection exactEigen scenario 0).vectorsFromCamera.find referenceTagId = some b ∧
        (1 : ℚ) = (a - b).x ∧ (0 : ℚ) = (a - b).y ∧ (0 : ℚ) = (a - b).z ∧
        (1 : ℚ) = exactEigen.norm (a - b)) ∧
      (outputOf exactEigen scenario 0).filter (Output.isLineFor 5) = [Output.line 5 1 1 0 0]) :=
  have h1 : (afterDetection exactEigen scenario 0).lru.find referenceTagId = some 20 := by decide
  have h3 : Output.line 5 1 1 0 0 ∈ outputOf exactEigen scenario 0 := by
    with_unfolding_all decide
  have h4 : IsEuclideanNorm (exactEigen.norm ⟨1, 0, 0⟩) ⟨1, 0, 0⟩ :=
    ⟨by with_unfolding_all decide, by with_unfolding_all decide⟩
  ⟨⟨h1, by decide, h3, h4⟩,
    (C5_relative_position exactEigen).1 scenario 0 5 20 1 1 0 0 h1 (by decide) h3,
    (C5_relative_position exactEigen).2 h4⟩

/-! ## Counting report lines -/

theorem countP_isLineFor_entry (E : Eigen) (c : Int) (pos : Int → Vector3d) (e : Int × Int)
    (k : Int) :
    List.countP (Output.isLineFor k) (entryOutput E c pos e) =
      if e.1 = k ∧ 0 ≤ e.2 ∧ c = 0 then 1 else 0 := by
  unfold entryOutput
  split_ifs <;> simp_all [Output.isLineFor, lineFor] <;> omega

theorem countP_isLineFor (E : Eigen) (c : Int) (pos : Int → Vector3d) (m : Map Int) (k : Int) :
    List.countP (Output.isLineFor k) (m.entries.flatMap (entryOutput E c pos)) =
      match m.find k with
      | some v => if 0 ≤ v ∧ c = 0 then 1 else 0
      | none => 0 := by
  rw [countP_flatMap_key (Output.isLineFor k) (entryOutput E c pos) k
    (fun e he => by rw [countP_isLineFor_entry]; simp [he]) m.entries m.sorted]
  show _ = (match findEntries m.entries k with
    | some v => if 0 ≤ v ∧ c = 0 then 1 else 0
    | none => 0)
  cases findEntries m.entries k with
  | none => rfl
  | some v => simp [countP_isLineFor_entry]

theorem frame_countP_isLineFor (E : Eigen) (s : State) (ds : List TagDetection) (k : Int) :
    List.countP (Output.isLineFor k) (frame E s ds).2 =
      match (detectionLoop s ds).lru.find k with
      | some v => if 0 ≤ v ∧ s.lastCount = 0 then 1 else 0
      | none => 0 := by
  rw [frame_output, countP_isLineFor]

/-- On the walk: how many lines frame `n` prints for id `k`. -/
theorem outputOf_isLineFor_count (E : Eigen) (frames : Nat → List TagDetection) (n : Nat)
    (k : Int) :
    List.countP (Output.isLineFor k) (outputOf E frames n) =
      match (afterDetection E frames n).lru.find k with
      | some v => if 0 ≤ v ∧ n % 10 = 0 then 1 else 0
      | none => 0 := by
  rw [outputOf_eq, countP_isLineFor]
  cases (afterDetection E frames n).lru.find k with
  | none => rfl
  | some v =>
    have h : (((n % 10 : Nat) : Int) = 0) ↔ n % 10 = 0 := by omega
    simp only [h]

/-- On the walk: the ttl of an id detected in the frame, after the frame. -/
theorem frame_ttl_of_detected (E : Eigen) (s : State) (ds : List TagDetection) (k : Int)
    (h : detected k ds) : (frame E s ds).1.lru.find k = some (smoothingFrames - 1) := by
  rw [frame_lru]
  simp [ttlAfterDetection, h, agedTtl, smoothingFrames]

theorem upsert_idem (s : State) (d : TagDetection) : upsert (upsert s d) d = upsert s d := by
  simp only [upsert, Map.insert_idem]

/-- Claim C8. Between the two loops of a frame the ttl of every detected id is
`smoothingFrames`, whatever the table held before; and the body of the detection loop run
twice on one detection gives the state that running it once gives. -/
theorem C8_upsert_is_idempotent_reset (s : State) (ds : List TagDetection) (k : Int)
    (h : detected k ds) :
    (detectionLoop s ds).lru.find k = some smoothingFrames ∧
      (∀ d : TagDetection, upsert (upsert s d) d = upsert s d) ∧
      (∀ d : TagDetection, detectionLoop s [d, d] = detectionLoop s [d]) := by
  refine ⟨?_, upsert_idem s, fun d => upsert_idem s d⟩
  rw [detectionLoop_lru]
  simp [ttlAfterDetection, h]

/-- Claim C8 for marker 5 detected when its entry holds ttl -1 (the state after frame 20 of
a run that saw it in frame 0 only). -/
theorem C8_upsert_is_idempotent_reset_witness :
    (detected 5 [det5] ∧ (stateAfter exactEigen onlyFirst5 20).lru.find 5 = some (-1)) ∧
    ((detectionLoop (stateAfter exactEigen onlyFirst5 20) [det5]).lru.find 5
        = some smoothingFrames ∧
      (∀ d : TagDetection,
        upsert (upsert (stateAfter exactEigen onlyFirst5 20) d) d
          = upsert (stateAfter exactEigen onlyFirst5 20) d) ∧
      (∀ d : TagDetection,
        detectionLoop (stateAfter exactEigen onlyFirst5 20) [d, d]
          = detectionLoop (stateAfter exactEigen onlyFirst5 20) [d])) :=
  ⟨⟨by decide, by decide⟩,
    C8_upsert_is_idempotent_reset (stateAfter exactEigen onlyFirst5 20) [det5] 5 (by decide)⟩

/-! ## Frames without detections, and the recorded translations -/

/-- On the walk: a frame with no detections takes 1 off a non-negative ttl and adds no key. -/
theorem frame_empty_ages_by_one (E : Eigen) (s : State) (k : Int) (v : Int)
    (h : s.lru.find k = some v) (hv : 0 ≤ v) :
    (frame E s []).1.lru.find k = some (v - 1) ∧
      ∀ j, j ∈ (frame E s []).1.lru.keys → j ∈ s.lru.keys := by
  constructor
  · rw [frame_lru]
    simp only [ttlAfterDetection, detected, List.map_nil, List.not_mem_nil, if_false, h, agedTtl]
    rw [if_neg (by omega)]
  · intro j hj
    rw [Map.mem_keys_iff] at hj ⊢
    rw [frame_lru] at hj
    have h1 := isSome_of_agedTtl j _ hj
    simpa [ttlAfterDetection, detected] using h1

theorem frame_readVector_of_not_detected (E : Eigen) (s : State) (ds : List TagDetection)
    (k : Int) (hn : ¬ detected k ds) :
    readVector E (frame E s ds).1.vectorsFromCamera k = readVector E s.vectorsFromCamera k := by
  show readVector E (agingLoop E (detectionLoop s ds)).1.vectorsFromCamera k = _
  unfold agingLoop
  rw [agingFold_readVector]
  show ((detectionLoop s ds).vectorsFromCamera.find k).getD _ = _
  rw [detectionLoop_vectors, lastTranslation_none_of_not_detected k ds hn]
  rfl

/-- Claim C12. In a frame in which `k` is not detected, what `vectorsFromCamera[k]` reads is
the same after the frame as before it, and a stored vector stays stored (the only change
there can be is that the read of the report stores the default-constructed vector under a
key that had none); in a frame in which `k` is detected, the stored vector after the frame
is the translation of the last detection of `k` in that frame. -/
theorem C12_translation_changes_only_by_detection (E : Eigen) (s : State)
    (ds : List TagDetection) (k : Int) :
    (¬ detected k ds →
      readVector E (frame E s ds).1.vectorsFromCamera k = readVector E s.vectorsFromCamera k ∧
      ((frame E s ds).1.vectorsFromCamera.find k = s.vectorsFromCamera.find k ∨
        (s.vectorsFromCamera.find k = none ∧
          (frame E s ds).1.vectorsFromCamera.find k = some E.uninitialized))) ∧
    (∀ p, lastTranslation k ds = some p →
      (frame E s ds).1.vectorsFromCamera.find k = some p) := by
  constructor
  · intro hn
    have hr := frame_readVector_of_not_detected E s ds k hn
    refine ⟨hr, ?_⟩
    cases hb : s.vectorsFromCamera.find k with
    | some p => exact Or.inl (frame_find_of_not_detected E s ds k p hn hb)
    | none =>
      cases ha : (frame E s ds).1.vectorsFromCamera.find k with
      | none => exact Or.inl rfl
      | some q =>
        refine Or.inr ⟨rfl, ?_⟩
        simp only [readVector, ha, hb, Option.getD_some, Option.getD_none] at hr
        rw [hr]
  · intro p hp
    apply frame_find_of_recorded
    rw [detectionLoop_vectors, hp]

/-- Claim C12 in frame 1 of the scenario: the reference, not detected, keeps `(0,0,1)`;
marker 5, detected at `(1,0,1)`, has `(1,0,1)` stored. -/
theorem C12_translation_changes_only_by_detection_witness :
    (¬ detected referenceTagId (scenario 1) ∧
      (stateBefore exactEigen scenario 1).vectorsFromCamera.find referenceTagId
        = some ⟨0, 0, 1⟩ ∧
      lastTranslation 5 (scenario 1) = some ⟨1, 0, 1⟩) ∧
    (readVector exactEigen
        (frame exactEigen (stateBefore exactEigen scenario 1) (scenario 1)).1.vectorsFromCamera
        referenceTagId
      = readVector exactEigen (stateBefore exactEigen scenario 1).vectorsFromCamera
        referenceTagId ∧
      (frame exactEigen (stateBefore exactEigen scenario 1) (scenario 1)).1.vectorsFromCamera.find 5
        = some ⟨1, 0, 1⟩) :=
  have h1 : ¬ detected referenceTagId (scenario 1) := by decide
  have h2 : lastTranslation 5 (scenario 1) = some ⟨1, 0, 1⟩ := rfl
  ⟨⟨h1, rfl, h2⟩,
    ((C12_translation_changes_only_by_detection exactEigen (stateBefore exactEigen scenario 1)
      (scenario 1) referenceTagId).1 h1).1,
    (C12_translation_changes_only_by_detection exactEigen (stateBefore exactEigen scenario 1)
      (scenario 1) 5).2 ⟨1, 0, 1⟩ h2⟩

/-! ## The size of the table -/

theorem Map.keys_nodup {β : Type} (m : Map β) : m.keys.Nodup := by
  unfold Map.keys List.Nodup
  rw [List.pairwise_map]
  exact List.Pairwise.imp (fun h => ne_of_lt h) m.sorted

theorem mem_idsDetected (frames : Nat → List TagDetection) (lo n : Nat) (k : Int) :
    k ∈ idsDetected frames lo n ↔ ∃ t, lo ≤ t ∧ t ≤ n ∧ detected k (frames t) := by
  unfold idsDetected detected
  simp only [List.mem_flatMap, List.mem_filter, List.mem_range, decide_eq_true_eq]
  constructor
  · rintro ⟨t, ⟨h1, h2⟩, h3⟩
    exact ⟨t, h2, by omega, h3⟩
  · rintro ⟨t, h1, h2, h3⟩
    exact ⟨t, ⟨by omega, h1⟩, h3⟩

/-- A non-reference entry of the table after frame `n`, with ttl `v`, was last detected in
frame `n - (19 - v)`; its ttl is between -1 and 19. -/
theorem tracked_since (E : Eigen) (frames : Nat → List TagDetection) (k : Int)
    (hk : k ≠ referenceTagId) (n : Nat) (v : Int)
    (h : (stateAfter E frames n).lru.find k = some v) :
    -1 ≤ v ∧ ∃ t, t ≤ n ∧ detected k (frames t) ∧ ((n : Int) - t = smoothingFrames - 1 - v) := by
  induction n generalizing v with
  | zero =>
    by_cases hd : detected k (frames 0)
    · rw [ttl_of_detected E frames 0 k hd] at h
      have hv := Option.some.inj h
      unfold smoothingFrames at hv ⊢
      exact ⟨by omega, 0, le_refl _, hd, by omega⟩
    · rw [stateAfter_eq, frame_lru] at h
      simp [ttlAfterDetection, hd, stateBefore, State.initial, Map.empty, Map.find,
        findEntries, agedTtl] at h
  | succ n ih =>
    by_cases hd : detected k (frames (n + 1))
    · rw [ttl_of_detected E frames (n + 1) k hd] at h
      have hv := Option.some.inj h
      unfold smoothingFrames at hv ⊢
      exact ⟨by omega, n + 1, le_refl _, hd, by omega⟩
    · rw [ttl_of_not_detected E frames n k hd] at h
      cases hw : (stateAfter E frames n).lru.find k with
      | none => rw [hw] at h; exact Option.noConfusion h
      | some w =>
        rw [hw] at h
        simp only [agedTtl, if_neg hk] at h
        split_ifs at h with h1
        have hv := Option.some.inj h
        obtain ⟨_, t, ht, hdt, heq⟩ := ih w hw
        refine ⟨by omega, t, by omega, hdt, ?_⟩
        push_cast
        omega

theorem keys_length_le (frames : Nat → List TagDetection) (lo n : Nat) (m : Map Int)
    (h : ∀ k, k ≠ referenceTagId → k ∈ m.keys → k ∈ idsDetected frames lo n) :
    m.keys.length ≤ distinctDetected frames lo n + 1 := by
  have hnd : (m.keys.erase referenceTagId).Nodup := List.Nodup.erase _ m.keys_nodup
  have hsub : m.keys.erase referenceTagId ⊆ (idsDetected frames lo n).dedup := by
    intro k hk
    rw [List.Nodup.mem_erase_iff m.keys_nodup] at hk
    exact List.mem_dedup.2 (h k hk.1 hk.2)
  have hle := (List.subperm_of_subset hnd hsub).length_le
  unfold distinctDetected
  by_cases hr : referenceTagId ∈ m.keys
  · rw [List.length_erase_of_mem hr] at hle
    omega
  · rw [List.erase_of_not_mem hr] at hle
    omega

/-- On the walk: the size of the table after frame `n`. -/
theorem stateAfter_size_bound (E : Eigen) (frames : Nat → List TagDetection) (n : Nat) :
    (stateAfter E frames n).lru.keys.length
      ≤ distinctDetected frames (n - (smoothingFrames.toNat)) n + 1 := by
  apply keys_length_le
  intro k hk hmem
  rw [Map.mem_keys_iff] at hmem
  obtain ⟨v, hv⟩ := Option.isSome_iff_exists.1 hmem
  obtain ⟨h1, t, ht, hdt, heq⟩ := tracked_since E frames k hk n v hv
  rw [mem_idsDetected]
  refine ⟨t, ?_, ht, hdt⟩
  have h20 : smoothingFrames.toNat = 20 := by decide
  rw [h20]
  unfold smoothingFrames at heq
  omega

/-! ## `standardRad` -/

theorem PI_pos {α : Type} [LinearOrderedField α] : 0 < PI α := by
  unfold PI
  norm_num

theorem TWOPI_eq {α : Type} [LinearOrderedField α] : TWOPI α = 2 * PI α := by
  unfold TWOPI
  norm_num

theorem TWOPI_pos {α : Type} [LinearOrderedField α] : 0 < TWOPI α := by
  rw [TWOPI_eq]
  have hpos : 0 < PI α := PI_pos
  linarith

theorem truncate_of_nonneg {α : Type} [LinearOrderedField α] [FloorRing α] (q : α) (h : 0 ≤ q) : truncate q = Int.floor q := by
  unfold truncate
  rw [if_pos h]

/-- The truncated remainder is `x` minus an integer multiple of `y`. -/
theorem fmod_eq_sub {α : Type} [LinearOrderedField α] [FloorRing α] (x y : α) : ∃ n : Int, fmod x y = x - (n : α) * y :=
  ⟨truncate (x / y), rfl⟩

theorem fmod_nonneg_lt {α : Type} [LinearOrderedField α] [FloorRing α] (x y : α) (hx : 0 ≤ x) (hy : 0 < y) :
    0 ≤ fmod x y ∧ fmod x y < y := by
  unfold fmod
  rw [truncate_of_nonneg _ (div_nonneg hx hy.le)]
  have h1 : (Int.floor (x / y) : α) ≤ x / y := Int.floor_le _
  have h2 : x / y < (Int.floor (x / y) : α) + 1 := Int.lt_floor_add_one _
  have h3 : (Int.floor (x / y) : α) * y ≤ x := (le_div_iff₀ hy).1 h1
  have h4 : x < ((Int.floor (x / y) : α) + 1) * y := (div_lt_iff₀ hy).1 h2
  constructor
  · linarith
  · linarith

theorem fmod_eq_self {α : Type} [LinearOrderedField α] [FloorRing α] (x y : α) (hx : 0 ≤ x) (hxy : x < y) : fmod x y = x := by
  have hy : 0 < y := lt_of_le_of_lt hx hxy
  unfold fmod
  rw [truncate_of_nonneg _ (div_nonneg hx hy.le)]
  have h : Int.floor (x / y) = 0 := by
    rw [Int.floor_eq_iff]
    constructor
    · simpa using div_nonneg hx hy.le
    · simpa using (div_lt_one hy).2 hxy
  rw [h]
  simp

theorem fmod_self {α : Type} [LinearOrderedField α] [FloorRing α] (y : α) (hy : 0 < y) : fmod y y = 0 := by
  unfold fmod
  rw [div_self (ne_of_gt hy), truncate_of_nonneg _ zero_le_one]
  simp

theorem fmod_neg_right {α : Type} [LinearOrderedField α] [FloorRing α] (x y : α) : fmod x (-y) = -fmod (-x) y := by
  unfold fmod
  rw [div_neg, ← neg_div]
  ring

/-- The branch of `standardRad` for a non-negative argument. -/
theorem standardRad_of_nonneg {α : Type} [LinearOrderedField α] [FloorRing α] (t : α) (h : 0 ≤ t) :
    standardRad t = fmod (t + PI α) (TWOPI α) - PI α := by
  unfold standardRad
  rw [if_pos (ge_iff_le.2 h)]

/-- The branch of `standardRad` for a negative argument mirrors the other branch. -/
theorem standardRad_of_neg {α : Type} [LinearOrderedField α] [FloorRing α] (t : α) (h : t < 0) : standardRad t = -standardRad (-t) := by
  rw [standardRad_of_nonneg (-t) (by linarith)]
  unfold standardRad
  rw [if_neg (by simpa using h), fmod_neg_right]
  have : -(t - PI α) = -t + PI α := by ring
  rw [this]
  ring

theorem standardRad_range_of_nonneg {α : Type} [LinearOrderedField α] [FloorRing α] (t : α) (h : 0 ≤ t) :
    -(PI α) ≤ standardRad t ∧ standardRad t < PI α := by
  rw [standardRad_of_nonneg t h]
  have hp : 0 < PI α := PI_pos
  obtain ⟨h1, h2⟩ := fmod_nonneg_lt (t + PI α) (TWOPI α) (by linarith) TWOPI_pos
  have h3 : TWOPI α = 2 * PI α := TWOPI_eq
  constructor <;> linarith

theorem standardRad_range {α : Type} [LinearOrderedField α] [FloorRing α] (t : α) : -(PI α) ≤ standardRad t ∧ standardRad t ≤ PI α := by
  by_cases h : 0 ≤ t
  · obtain ⟨h1, h2⟩ := standardRad_range_of_nonneg t h
    exact ⟨h1, h2.le⟩
  · have hneg : t < 0 := not_le.1 h
    rw [standardRad_of_neg t hneg]
    obtain ⟨h1, h2⟩ := standardRad_range_of_nonneg (-t) (by linarith)
    constructor <;> linarith

theorem standardRad_multiple {α : Type} [LinearOrderedField α] [FloorRing α] (t : α) : ∃ n : Int, standardRad t = t + (n : α) * TWOPI α := by
  by_cases h : 0 ≤ t
  · rw [standardRad_of_nonneg t h]
    obtain ⟨n, hn⟩ := fmod_eq_sub (t + PI α) (TWOPI α)
    refine ⟨-n, ?_⟩
    rw [hn]
    push_cast
    ring
  · have hneg : t < 0 := not_le.1 h
    rw [standardRad_of_neg t hneg, standardRad_of_nonneg (-t) (by linarith)]
    obtain ⟨n, hn⟩ := fmod_eq_sub (-t + PI α) (TWOPI α)
    refine ⟨n, ?_⟩
    rw [hn]
    ring

/-- Inside the open interval `standardRad` is the identity. -/
theorem standardRad_fixed {α : Type} [LinearOrderedField α] [FloorRing α] (r : α) (h1 : -(PI α) < r) (h2 : r < PI α) : standardRad r = r := by
  have key : ∀ u : α, 0 ≤ u → u < PI α → standardRad u = u := by
    intro u hu0 hu
    rw [standardRad_of_nonneg u hu0, fmod_eq_self (u + PI α) (TWOPI α)
      (by have hpos : 0 < PI α := PI_pos; linarith) (by rw [TWOPI_eq]; linarith)]
    ring
  by_cases h : 0 ≤ r
  · exact key r h h2
  · have hneg : r < 0 := not_le.1 h
    rw [standardRad_of_neg r hneg, key (-r) (by linarith) (by linarith)]
    ring

theorem standardRad_PI {α : Type} [LinearOrderedField α] [FloorRing α] : standardRad (PI α) = -(PI α) := by
  have hp : 0 < PI α := PI_pos
  rw [standardRad_of_nonneg _ hp.le]
  have : PI α + PI α = TWOPI α := by rw [TWOPI_eq]; ring
  rw [this, fmod_self _ TWOPI_pos]
  ring

theorem standardRad_neg_PI {α : Type} [LinearOrderedField α] [FloorRing α] : standardRad (-(PI α)) = PI α := by
  have hp : 0 < PI α := PI_pos
  rw [standardRad_of_neg _ (by linarith), neg_neg, standardRad_PI, neg_neg]

theorem standardRad_zero {α : Type} [LinearOrderedField α] [FloorRing α] : standardRad (0 : α) = 0 := by
  have hp : 0 < PI α := PI_pos
  exact standardRad_fixed 0 (by linarith) hp

/-- Claim C14, as stated, fails at the endpoints: `standardRad(PI) = -PI` and
`standardRad(-PI) = PI`, so applying `standardRad` twice to `PI` gives `PI` again, which is
not `standardRad(PI)`. -/
theorem C14_counterexample :
    standardRad (PI ℚ) = -(PI ℚ) ∧ standardRad (standardRad (PI ℚ)) = PI ℚ ∧
    standardRad (standardRad (PI ℚ)) ≠ standardRad (PI ℚ) ∧
    standardRad (standardRad (-(PI ℚ))) ≠ standardRad (-(PI ℚ)) := by
  have hp : 0 < PI ℚ := PI_pos
  refine ⟨standardRad_PI, ?_, ?_, ?_⟩
  · rw [standardRad_PI, standardRad_neg_PI]
  · rw [standardRad_PI, standardRad_neg_PI]
    intro h
    linarith
  · rw [standardRad_neg_PI, standardRad_PI]
    intro h
    linarith

/-- Claim C14, amended. `standardRad` applied twice equals `standardRad` applied once
exactly when the first result is not an endpoint; the endpoints are exchanged:
`standardRad(PI) = -PI` and `standardRad(-PI) = PI`. -/
theorem C14_idempotent_off_endpoints {α : Type} [LinearOrderedField α] [FloorRing α] (x : α) :
    (standardRad (standardRad x) = standardRad x ↔
      (standardRad x ≠ PI α ∧ standardRad x ≠ -(PI α))) ∧
    standardRad (PI α) = -(PI α) ∧ standardRad (-(PI α)) = PI α := by
  have hp : 0 < PI α := PI_pos
  refine ⟨⟨?_, ?_⟩, standardRad_PI, standardRad_neg_PI⟩
  · intro h
    constructor
    · intro he
      rw [he, standardRad_PI] at h
      linarith
    · intro he
      rw [he, standardRad_neg_PI] at h
      linarith
  · rintro ⟨h1, h2⟩
    obtain ⟨h3, h4⟩ := standardRad_range x
    exact standardRad_fixed _ (lt_of_le_of_ne h3 (fun h => h2 h.symm)) (lt_of_le_of_ne h4 h1)

/-- Claim C15. For every `t`, negative, zero or positive, `standardRad t` lies in
`[-PI, PI]` and differs from `t` by an integer multiple of `TWOPI`. -/
theorem C15_standardRad_range {α : Type} [LinearOrderedField α] [FloorRing α] (t : α) :
    (-(PI α) ≤ standardRad t ∧ standardRad t ≤ PI α) ∧
    ∃ n : Int, standardRad t = t + (n : α) * TWOPI α :=
  ⟨standardRad_range t, standardRad_multiple t⟩

/-- Claim C16. On the identity matrix `wRo_to_euler` returns yaw 0, pitch 0 and roll 0,
given the values of the C library at the arguments it is called with there:
`atan2(0, 1) = 0`, `cos(0) = 1`, `sin(0) = 0`. -/
theorem C16_euler_of_identity {α : Type} [LinearOrderedField α] [FloorRing α] (M : Libm α)
    (hatan : M.atan2 0 1 = 0) (hcos : M.cos 0 = 1) (hsin : M.sin 0 = 0) :
    wRo_to_euler M (Matrix3d.identity α) = (0, 0, 0) := by
  have hyaw : standardRad (M.atan2 (Matrix3d.identity α 1 0) (Matrix3d.identity α 0 0)) = 0 := by
    simp [Matrix3d.identity, hatan, standardRad_zero]
  unfold wRo_to_euler
  simp only [hyaw, hcos, hsin]
  simp [Matrix3d.identity, hatan, standardRad_zero]

/-- Claim C16 with a rational stand-in for the C library. -/
theorem C16_euler_of_identity_witness :
    (smallAngleLibm.atan2 0 1 = 0 ∧ smallAngleLibm.cos 0 = 1 ∧ smallAngleLibm.sin 0 = 0) ∧
    wRo_to_euler smallAngleLibm (Matrix3d.identity ℚ) = (0, 0, 0) :=
  have h1 : smallAngleLibm.atan2 0 1 = 0 := by with_unfolding_all decide
  have h2 : smallAngleLibm.cos 0 = 1 := by with_unfolding_all decide
  have h3 : smallAngleLibm.sin 0 = 0 := by with_unfolding_all decide
  ⟨⟨h1, h2, h3⟩, C16_euler_of_identity smallAngleLibm h1 h2 h3⟩

/-! ## The display counter -/

theorem findEntries_ext {β : Type} (l l' : List (Int × β)) (h : KeysAscending l)
    (h' : KeysAscending l') (hf : ∀ k, findEntries l k = findEntries l' k) : l = l' := by
  induction l generalizing l' with
  | nil =>
    cases l' with
    | nil => rfl
    | cons b l' =>
      have := hf b.1
      simp [findEntries] at this
  | cons a l ih =>
    cases l' with
    | nil =>
      have := hf a.1
      simp [findEntries] at this
    | cons b l' =>
      obtain ⟨ka, va⟩ := a
      obtain ⟨kb, vb⟩ := b
      have hl : KeysAscending l := (List.pairwise_cons.1 h).2
      have hl' : KeysAscending l' := (List.pairwise_cons.1 h').2
      have hna : findEntries l ka = none := findEntries_tail_none (ka, va) l h
      have hnb : findEntries l' kb = none := findEntries_tail_none (kb, vb) l' h'
      have hk : ka = kb := by
        by_contra hne
        rcases lt_or_gt_of_ne hne with hlt | hgt
        · have h1 := hf ka
          simp only [findEntries, if_pos rfl, if_neg (ne_of_lt hlt)] at h1
          rw [findEntries_none_of_lt l' ka (fun e he =>
            lt_trans hlt ((List.pairwise_cons.1 h').1 e he))] at h1
          exact Option.noConfusion h1
        · have h1 := hf kb
          simp only [findEntries, if_pos rfl, if_neg (ne_of_lt hgt)] at h1
          rw [findEntries_none_of_lt l kb (fun e he =>
            lt_trans hgt ((List.pairwise_cons.1 h).1 e he))] at h1
          exact Option.noConfusion h1
      subst hk
      have hv : va = vb := by
        have h1 := hf ka
        simp only [findEntries, if_pos rfl] at h1
        exact Option.some.inj h1
      subst hv
      have htail : l = l' := by
        apply ih l' hl hl'
        intro k
        by_cases hkk : k = ka
        · rw [hkk, hna, hnb]
        · have h1 := hf k
          simpa only [findEntries, if_neg hkk] using h1
      rw [htail]

theorem Map.ext_find {β : Type} (m m' : Map β) (h : ∀ k, m.find k = m'.find k) : m = m' :=
  Map.ext_entries m m' (findEntries_ext m.entries m'.entries m.sorted m'.sorted h)

theorem agingBody_outputStrings (E : Eigen) (acc : State × List Output) (kv : Int × Int)
    (k : Int) :
    (agingBody E acc kv).1.outputStrings.find k =
      if k = kv.1 ∧ kv.2 < 0 ∧ kv.1 ≠ referenceTagId then none
      else acc.1.outputStrings.find k := by
  unfold agingBody
  simp only
  split_ifs <;> simp_all [Map.find_erase, report_outputStrings]

theorem agingFold_outputStrings (E : Eigen) (l : List (Int × Int)) (acc : State × List Output)
    (h : KeysAscending l) (k : Int) :
    (l.foldl (agingBody E) acc).1.outputStrings.find k =
      match findEntries l k with
      | some v => if v < 0 ∧ k ≠ referenceTagId then none else acc.1.outputStrings.find k
      | none => acc.1.outputStrings.find k := by
  induction l generalizing acc with
  | nil => rfl
  | cons a l ih =>
    obtain ⟨ka, va⟩ := a
    have hl : KeysAscending l := (List.pairwise_cons.1 h).2
    have hn : findEntries l ka = none := findEntries_tail_none (ka, va) l h
    rw [List.foldl_cons, ih _ hl]
    simp only [findEntries]
    by_cases h1 : k = ka
    · subst h1
      rw [hn, if_pos rfl]
      simp [agingBody_outputStrings]
    · rw [if_neg h1]
      simp [agingBody_outputStrings, h1]

theorem frame_outputStrings (E : Eigen) (s : State) (ds : List TagDetection) (k : Int) :
    (frame E s ds).1.outputStrings.find k =
      match (detectionLoop s ds).lru.find k with
      | some v =>
        if v < 0 ∧ k ≠ referenceTagId then none else (detectionLoop s ds).outputStrings.find k
      | none => (detectionLoop s ds).outputStrings.find k :=
  agingFold_outputStrings E (detectionLoop s ds).lru.entries (detectionLoop s ds, [])
    (detectionLoop s ds).lru.sorted k

theorem detectionLoop_setLastCount (s : State) (c : Int) (ds : List TagDetection) :
    detectionLoop { s with lastCount := c } ds = { detectionLoop s ds with lastCount := c } := by
  induction ds generalizing s with
  | nil => rfl
  | cons d ds ih =>
    rw [detectionLoop_cons, detectionLoop_cons, ← ih]
    rfl

theorem entryOutput_nil (E : Eigen) (c : Int) (pos : Int → Vector3d) (e : Int × Int)
    (hc : c ≠ 0) : entryOutput E c pos e = [] := by
  unfold entryOutput
  split_ifs <;> simp_all

theorem frame_readVector (E : Eigen) (s : State) (ds : List TagDetection) :
    readVector E (frame E s ds).1.vectorsFromCamera =
      readVector E (detectionLoop s ds).vectorsFromCamera :=
  agingFold_readVector E (detectionLoop s ds).lru.entries (detectionLoop s ds, [])

/-- Claim C17. `lastCount` at the start of frame `n` is `n mod 10`; a frame with
`n mod 10 ≠ 0` prints nothing (no relative-position line, no Reference-Lost message); and
after a frame `lru`, `outputStrings` and what every `vectorsFromCamera[k]` reads are the
same whatever value `lastCount` had. -/
theorem C17_display_counter_is_rate_limiter (E : Eigen) (frames : Nat → List TagDetection)
    (n : Nat) :
    (stateBefore E frames n).lastCount = ((n % smoothingDisplay.toNat : Nat) : Int) ∧
    (n % smoothingDisplay.toNat ≠ 0 → outputOf E frames n = []) ∧
    (∀ (s : State) (c : Int) (ds : List TagDetection),
      (frame E { s with lastCount := c } ds).1.lru = (frame E s ds).1.lru ∧
      (frame E { s with lastCount := c } ds).1.outputStrings = (frame E s ds).1.outputStrings ∧
      readVector E (frame E { s with lastCount := c } ds).1.vectorsFromCamera
        = readVector E (frame E s ds).1.vectorsFromCamera) := by
  have h10 : smoothingDisplay.toNat = 10 := by decide
  rw [h10]
  refine ⟨lastCount_before E frames n, ?_, ?_⟩
  · intro hn
    rw [outputOf_eq]
    have hc : ((n % 10 : Nat) : Int) ≠ 0 := by omega
    exact List.flatMap_eq_nil_iff.2 (fun e _ => entryOutput_nil E _ _ e hc)
  · intro s c ds
    refine ⟨?_, ?_, ?_⟩
    · apply Map.ext_find
      intro k
      rw [frame_lru, frame_lru]
      rfl
    · apply Map.ext_find
      intro k
      rw [frame_outputStrings, frame_outputStrings, detectionLoop_setLastCount]
    · rw [frame_readVector, frame_readVector, detectionLoop_setLastCount]

/-- Claim C17 in frame 7 of the scenario: `lastCount` is 7 and nothing is printed. -/
theorem C17_display_counter_is_rate_limiter_witness :
    (7 % smoothingDisplay.toNat ≠ 0) ∧
    ((stateBefore exactEigen scenario 7).lastCount = 7 ∧ outputOf exactEigen scenario 7 = []) :=
  ⟨by decide,
    (C17_display_counter_is_rate_limiter exactEigen scenario 7).1,
    (C17_display_counter_is_rate_limiter exactEigen scenario 7).2.1 (by decide)⟩

/-! ## The range of the ttl -/

theorem ttl_bounds (E : Eigen) (frames : Nat → List TagDetection) (k : Int) (n : Nat) (v : Int)
    (h : (stateAfter E frames n).lru.find k = some v) : -1 ≤ v ∧ v ≤ smoothingFrames - 1 := by
  induction n generalizing v with
  | zero =>
    by_cases hd : detected k (frames 0)
    · rw [ttl_of_detected E frames 0 k hd] at h
      have hv := Option.some.inj h
      unfold smoothingFrames at hv ⊢
      omega
    · rw [stateAfter_eq, frame_lru] at h
      simp [ttlAfterDetection, hd, stateBefore, State.initial, Map.empty, Map.find,
        findEntries, agedTtl] at h
  | succ n ih =>
    by_cases hd : detected k (frames (n + 1))
    · rw [ttl_of_detected E frames (n + 1) k hd] at h
      have hv := Option.some.inj h
      unfold smoothingFrames at hv ⊢
      omega
    · rw [ttl_of_not_detected E frames n k hd] at h
      cases hw : (stateAfter E frames n).lru.find k with
      | none => rw [hw] at h; exact Option.noConfusion h
      | some w =>
        rw [hw] at h
        obtain ⟨h1, h2⟩ := ih w hw
        simp only [agedTtl] at h
        unfold smoothingFrames at h2 ⊢
        split_ifs at h with h3 h4
        · have hv := Option.some.inj h
          omega
        · have hv := Option.some.inj h
          omega

/-! ## The lookups of the report -/

theorem Map.keys_sorted {β : Type} (m : Map β) : m.keys.Sorted (fun a b => a < b) := by
  unfold Map.keys List.Sorted
  rw [List.pairwise_map]
  exact m.sorted

theorem keys_eq_of_isSome_eq {β γ : Type} (m : Map β) (m' : Map γ)
    (h : ∀ k, (m.find k).isSome = (m'.find k).isSome) : m.keys = m'.keys := by
  apply List.eq_of_perm_of_sorted _ m.keys_sorted m'.keys_sorted
  rw [List.perm_ext_iff_of_nodup m.keys_nodup m'.keys_nodup]
  intro k
  rw [Map.mem_keys_iff, Map.mem_keys_iff, h k]

theorem KeysAgree_detectionLoop (s : State) (ds : List TagDetection) (h : KeysAgree s) :
    KeysAgree (detectionLoop s ds) := by
  induction ds generalizing s with
  | nil => exact h
  | cons d ds ih =>
    rw [detectionLoop_cons]
    apply ih
    intro k
    simp only [upsert, Map.find_insert]
    by_cases hk : k = d.id
    · simp [hk]
    · simp [hk, h k]

theorem KeysAgree_frame (E : Eigen) (s : State) (ds : List TagDetection) (h : KeysAgree s) :
    KeysAgree (frame E s ds).1 := by
  intro k
  have hd := KeysAgree_detectionLoop s ds h k
  rw [frame_outputStrings, frame_lru, ← detectionLoop_lru]
  cases hl : (detectionLoop s ds).lru.find k with
  | none =>
    rw [hl] at hd
    simpa [agedTtl] using hd
  | some v =>
    rw [hl] at hd
    simp only [agedTtl]
    by_cases h1 : v < 0
    · by_cases h2 : k = referenceTagId
      · simpa [h1, h2] using hd
      · simp [h1, h2]
    · simpa [h1] using hd

theorem KeysAgree_stateBefore (E : Eigen) (frames : Nat → List TagDetection) (n : Nat) :
    KeysAgree (stateBefore E frames n) := by
  induction n with
  | zero => intro k; rfl
  | succ n ih => exact KeysAgree_frame E _ _ ih

theorem frame_keeps_vector_key (E : Eigen) (s : State) (ds : List TagDetection) (k : Int)
    (h : k ∈ s.vectorsFromCamera.keys) : k ∈ (frame E s ds).1.vectorsFromCamera.keys := by
  rw [Map.mem_keys_iff] at h
  obtain ⟨p, hp⟩ := Option.isSome_iff_exists.1 h
  have hd : ∃ q, (detectionLoop s ds).vectorsFromCamera.find k = some q := by
    rw [detectionLoop_vectors]
    cases lastTranslation k ds with
    | some q => exact ⟨q, rfl⟩
    | none => exact ⟨p, hp⟩
  obtain ⟨q, hq⟩ := hd
  exact Map.mem_keys_of_find _ _ q (frame_find_of_recorded E s ds k q hq)

theorem lastRecorded_find (E : Eigen) (frames : Nat → List TagDetection) (k : Int) (n : Nat)
    (p : Vector3d) (h : lastRecorded frames k n = some p) :
    (afterDetection E frames n).vectorsFromCamera.find k = some p := by
  induction n with
  | zero => exact afterDetection_of_lastTranslation E frames k p 0 h
  | succ n ih =>
    simp only [lastRecorded] at h
    cases hl : lastTranslation k (frames (n + 1)) with
    | some q =>
      rw [hl] at h
      rw [← h]
      exact afterDetection_of_lastTranslation E frames k q (n + 1) hl
    | none =>
      rw [hl] at h
      show (detectionLoop (stateBefore E frames (n + 1)) (frames (n + 1))).vectorsFromCamera.find k
        = some p
      rw [detectionLoop_vectors, hl]
      exact frame_find_of_recorded E _ _ k p (ih h)

theorem lastRecorded_of_detected (frames : Nat → List TagDetection) (k : Int) (n t : Nat)
    (ht : t ≤ n) (hd : detected k (frames t)) : ∃ p, lastRecorded frames k n = some p := by
  induction n with
  | zero =>
    have : t = 0 := by omega
    subst this
    exact lastTranslation_of_detected k _ hd
  | succ n ih =>
    simp only [lastRecorded]
    cases hl : lastTranslation k (frames (n + 1)) with
    | some q => exact ⟨q, rfl⟩
    | none =>
      by_cases htn : t = n + 1
      · subst htn
        obtain ⟨p, hp⟩ := lastTranslation_of_detected k _ hd
        rw [hp] at hl
        exact Option.noConfusion hl
      · exact ih (by omega)

theorem lastRecorded_none (frames : Nat → List TagDetection) (k : Int) (n : Nat)
    (h : ∀ t, t ≤ n → ¬ detected k (frames t)) : lastRecorded frames k n = none := by
  induction n with
  | zero => exact lastTranslation_none_of_not_detected k _ (h 0 (le_refl _))
  | succ n ih =>
    simp only [lastRecorded]
    rw [lastTranslation_none_of_not_detected k _ (h (n + 1) (le_refl _))]
    exact ih (fun t ht => h t (by omega))

/-- An id that has a ttl between the two loops of frame `n` was detected in a frame
`t <= n`. -/
theorem detected_of_tracked (E : Eigen) (frames : Nat → List TagDetection) (k : Int) (n : Nat)
    (h : ((afterDetection E frames n).lru.find k).isSome = true) :
    ∃ t, t ≤ n ∧ detected k (frames t) := by
  induction n with
  | zero =>
    by_cases hd : detected k (frames 0)
    · exact ⟨0, le_refl _, hd⟩
    · unfold afterDetection at h
      rw [detectionLoop_lru] at h
      simp [ttlAfterDetection, hd, stateBefore, State.initial, Map.empty, Map.find,
        findEntries] at h
  | succ n ih =>
    by_cases hd : detected k (frames (n + 1))
    · exact ⟨n + 1, le_refl _, hd⟩
    · unfold afterDetection at h
      rw [detectionLoop_lru] at h
      simp only [ttlAfterDetection, if_neg hd] at h
      have h1 : ((frame E (stateBefore E frames n) (frames n)).1.lru.find k).isSome = true := h
      rw [frame_lru, ← detectionLoop_lru] at h1
      obtain ⟨t, ht, hdt⟩ := ih (isSome_of_agedTtl k _ h1)
      exact ⟨t, by omega, hdt⟩

theorem readVector_never_detected_before (E : Eigen) (frames : Nat → List TagDetection)
    (k : Int) (n : Nat) (h : ∀ t, t < n → ¬ detected k (frames t)) :
    readVector E (stateBefore E frames n).vectorsFromCamera k = E.uninitialized := by
  induction n with
  | zero => rfl
  | succ n ih =>
    show readVector E (frame E (stateBefore E frames n) (frames n)).1.vectorsFromCamera k = _
    rw [frame_readVector_of_not_detected E _ _ k (h n (by omega))]
    exact ih (fun t ht => h t (by omega))

theorem readVector_never_detected (E : Eigen) (frames : Nat → List TagDetection)
    (k : Int) (n : Nat) (h : ∀ t, t ≤ n → ¬ detected k (frames t)) :
    readVector E (afterDetection E frames n).vectorsFromCamera k = E.uninitialized := by
  unfold afterDetection readVector
  rw [detectionLoop_vectors, lastTranslation_none_of_not_detected k _ (h n (le_refl _))]
  exact readVector_never_detected_before E frames k n (fun t ht => h t (by omega))

/-- Claim C19. After every frame `lru` and `outputStrings` have the same keys, each of them
is a key of `vectorsFromCamera`, and a frame removes no key of `vectorsFromCamera`. When
the reference has been detected in the current or an earlier frame, both vectors read for a
printed line are the translations recorded by the latest detection of the marker and of the
reference; when the reference has never been detected, no translation is recorded for it
and the read of `vectorsFromCamera[referenceTagId]` yields the default-constructed vector. -/
theorem C19_lookup_safety (E : Eigen) (frames : Nat → List TagDetection) (n : Nat) :
    (stateAfter E frames n).lru.keys = (stateAfter E frames n).outputStrings.keys ∧
    (∀ k, k ∈ (stateAfter E frames n).lru.keys →
      k ∈ (stateAfter E frames n).vectorsFromCamera.keys) ∧
    (∀ (s : State) (ds : List TagDetection) (k : Int), k ∈ s.vectorsFromCamera.keys →
      k ∈ (frame E s ds).1.vectorsFromCamera.keys) ∧
    ((∃ t, t ≤ n ∧ detected referenceTagId (frames t)) →
      ∀ (k : Int) (d x y z : ℚ), Output.line k d x y z ∈ outputOf E frames n →
        ∃ a b, lastRecorded frames k n = some a ∧
          lastRecorded frames referenceTagId n = some b ∧
          (afterDetection E frames n).vectorsFromCamera.find k = some a ∧
          (afterDetection E frames n).vectorsFromCamera.find referenceTagId = some b) ∧
    ((∀ t, t ≤ n → ¬ detected referenceTagId (frames t)) →
      lastRecorded frames referenceTagId n = none ∧
      readVector E (afterDetection E frames n).vectorsFromCamera referenceTagId
        = E.uninitialized) := by
  refine ⟨?_, ?_, ?_, ?_, ?_⟩
  · exact keys_eq_of_isSome_eq _ _ (KeysAgree_stateBefore E frames (n + 1))
  · intro k hk
    rw [Map.mem_keys_iff] at hk ⊢
    exact Recorded_stateBefore E frames (n + 1) k hk
  · exact fun s ds k h => frame_keeps_vector_key E s ds k h
  · rintro ⟨t, ht, hdt⟩ k d x y z hl
    obtain ⟨_, ⟨v, hv, _⟩, _⟩ := line_mem_outputOf E frames n k d x y z hl
    obtain ⟨t', ht', hdt'⟩ := detected_of_tracked E frames k n (by rw [hv]; rfl)
    obtain ⟨a, ha⟩ := lastRecorded_of_detected frames k n t' ht' hdt'
    obtain ⟨b, hb⟩ := lastRecorded_of_detected frames referenceTagId n t ht hdt
    exact ⟨a, b, ha, hb, lastRecorded_find E frames k n a ha,
      lastRecorded_find E frames referenceTagId n b hb⟩
  · intro h
    exact ⟨lastRecorded_none frames referenceTagId n h,
      readVector_never_detected E frames referenceTagId n h⟩

/-- Claim C19 on two runs. In frame 30 of the scenario (reference seen in frame 0) the line
of marker 5 is computed from the recorded `(1,0,1)` and `(0,0,1)`. In frame 0 of the run
that sees marker 5 only, a line is printed for marker 5 while `vectorsFromCamera` has no
entry for the reference. -/
theorem C19_lookup_safety_witness :
    ((∃ t, t ≤ 30 ∧ detected referenceTagId (scenario t)) ∧
      Output.line 5 1 1 0 0 ∈ outputOf exactEigen scenario 30 ∧
      (∀ t, t ≤ 0 → ¬ detected referenceTagId (onlyFirst5 t)) ∧
      List.countP (Output.isLineFor 5) (outputOf exactEigen onlyFirst5 0) = 1 ∧
      (afterDetection exactEigen onlyFirst5 0).vectorsFromCamera.find referenceTagId = none) ∧
    ((∃ a b, lastRecorded scenario 5 30 = some a ∧
        lastRecorded scenario referenceTagId 30 = some b ∧
        (afterDetection exactEigen scenario 30).vectorsFromCamera.find 5 = some a ∧
        (afterDetection exactEigen scenario 30).vectorsFromCamera.find referenceTagId = some b) ∧
      (lastRecorded onlyFirst5 referenceTagId 0 = none ∧
        readVector exactEigen (afterDetection exactEigen onlyFirst5 0).vectorsFromCamera
          referenceTagId = exactEigen.uninitialized)) :=
  have h1 : ∃ t, t ≤ 30 ∧ detected referenceTagId (scenario t) := ⟨0, by decide, by decide⟩
  have h2 : Output.line 5 1 1 0 0 ∈ outputOf exactEigen scenario 30 := by
    with_unfolding_all decide
  have h3 : ∀ t, t ≤ 0 → ¬ detected referenceTagId (onlyFirst5 t) := by
    intro t ht
    have ht0 : t = 0 := by omega
    subst ht0
    decide
  ⟨⟨h1, h2, h3, by decide, rfl⟩,
    (C19_lookup_safety exactEigen scenario 30).2.2.2.1 h1 5 1 1 0 0 h2,
    (C19_lookup_safety exactEigen onlyFirst5 0).2.2.2.2 h3⟩

/-! ## The strict loop and the walk -/

theorem agingFoldStrict_none (E : Eigen) (l : List (Int × Int)) :
    l.foldl (agingBodyStrict E) none = none := by
  induction l with
  | nil => rfl
  | cons a l ih => exact ih

theorem agingFoldStrict_of_not_erases (E : Eigen) (l : List (Int × Int))
    (acc : State × List Output) (h : ∀ e ∈ l, ¬ (e.2 < 0 ∧ e.1 ≠ referenceTagId)) :
    l.foldl (agingBodyStrict E) (some acc) = some (l.foldl (agingBody E) acc) := by
  induction l generalizing acc with
  | nil => rfl
  | cons a l ih =>
    rw [List.foldl_cons, List.foldl_cons]
    have ha : ¬ (a.2 < 0 ∧ a.1 ≠ referenceTagId) := h a (List.mem_cons_self _ _)
    have hstep : agingBodyStrict E (some acc) a = some (agingBody E acc a) := by
      simp only [agingBodyStrict, if_neg ha]
    rw [hstep]
    exact ih _ (fun e he => h e (List.mem_cons_of_mem _ he))

theorem agingFoldStrict_of_erases (E : Eigen) (l : List (Int × Int))
    (acc : State × List Output) (h : ∃ e ∈ l, e.2 < 0 ∧ e.1 ≠ referenceTagId) :
    l.foldl (agingBodyStrict E) (some acc) = none := by
  induction l generalizing acc with
  | nil =>
    obtain ⟨e, he, _⟩ := h
    simp at he
  | cons a l ih =>
    rw [List.foldl_cons]
    by_cases ha : a.2 < 0 ∧ a.1 ≠ referenceTagId
    · have hstep : agingBodyStrict E (some acc) a = none := by
        simp only [agingBodyStrict, if_pos ha]
      rw [hstep]
      exact agingFoldStrict_none E l
    · have hstep : agingBodyStrict E (some acc) a = some (agingBody E acc a) := by
        simp only [agingBodyStrict, if_neg ha]
      rw [hstep]
      apply ih
      obtain ⟨e, he, hp⟩ := h
      rcases List.mem_cons.1 he with rfl | he
      · exact absurd hp ha
      · exact ⟨e, he, hp⟩

/-- A pass that erases no entry is the walk. -/
theorem agingLoopStrict_of_not_erases (E : Eigen) (s : State) (h : ¬ erasesEntry s) :
    agingLoopStrict E s = some (agingLoop E s) :=
  agingFoldStrict_of_not_erases E s.lru.entries (s, [])
    (fun e he hp => h ⟨e, he, hp⟩)

/-- A pass that erases an entry has undefined behaviour. -/
theorem agingLoopStrict_of_erases (E : Eigen) (s : State) (h : erasesEntry s) :
    agingLoopStrict E s = none :=
  agingFoldStrict_of_erases E s.lru.entries (s, []) h

theorem frameStrict_of_not_erases (E : Eigen) (s : State) (ds : List TagDetection)
    (h : ¬ erasesEntry (detectionLoop s ds)) : frameStrict E s ds = some (frame E s ds) := by
  unfold frameStrict
  rw [agingLoopStrict_of_not_erases E _ h]
  rfl

theorem frameStrict_of_erases (E : Eigen) (s : State) (ds : List TagDetection)
    (h : erasesEntry (detectionLoop s ds)) : frameStrict E s ds = none := by
  unfold frameStrict
  rw [agingLoopStrict_of_erases E _ h]

theorem frameStrict_eq_some (E : Eigen) (s : State) (ds : List TagDetection)
    (r : State × List Output) (h : frameStrict E s ds = some r) :
    ¬ erasesEntry (detectionLoop s ds) ∧ r = frame E s ds := by
  by_cases he : erasesEntry (detectionLoop s ds)
  · rw [frameStrict_of_erases E s ds he] at h
    exact Option.noConfusion h
  · rw [frameStrict_of_not_erases E s ds he] at h
    exact ⟨he, (Option.some.inj h).symm⟩

theorem mem_of_findEntries {β : Type} (l : List (Int × β)) (k : Int) (v : β)
    (h : findEntries l k = some v) : (k, v) ∈ l := by
  induction l with
  | nil => exact Option.noConfusion h
  | cons a l ih =>
    obtain ⟨ka, va⟩ := a
    simp only [findEntries] at h
    split_ifs at h with h1
    · rw [h1, ← Option.some.inj h]
      exact List.mem_cons_self _ _
    · exact List.mem_cons_of_mem _ (ih h)

theorem erasesEntry_of_find (s : State) (k : Int) (v : Int) (hk : k ≠ referenceTagId)
    (h : s.lru.find k = some v) (hv : v < 0) : erasesEntry s :=
  ⟨(k, v), mem_of_findEntries _ k v h, hv, hk⟩

theorem runStrict_succ (E : Eigen) (frames : Nat → List TagDetection) (n : Nat) (s : State)
    (h : runStrict E frames n = some s) :
    runStrict E frames (n + 1) = (frameStrict E s (frames n)).map Prod.fst := by
  simp only [runStrict, h]

/-- A state of the strict run is the state of the walk. -/
theorem runStrict_eq (E : Eigen) (frames : Nat → List TagDetection) (n : Nat) (s : State)
    (h : runStrict E frames n = some s) : s = stateBefore E frames n := by
  induction n generalizing s with
  | zero => exact (Option.some.inj h).symm
  | succ n ih =>
    cases hr : runStrict E frames n with
    | none =>
      simp only [runStrict, hr] at h
      exact Option.noConfusion h
    | some s0 =>
      rw [runStrict_succ E frames n s0 hr] at h
      cases hf : frameStrict E s0 (frames n) with
      | none => rw [hf] at h; exact Option.noConfusion h
      | some r =>
        rw [hf] at h
        have h1 := (frameStrict_eq_some E s0 (frames n) r hf).2
        have h2 := ih s0 hr
        have h3 : s = r.1 := (Option.some.inj h).symm
        rw [h3, h1, h2]
        rfl

theorem runStrict_of_isSome (E : Eigen) (frames : Nat → List TagDetection) (n : Nat)
    (h : (runStrict E frames n).isSome = true) :
    runStrict E frames n = some (stateBefore E frames n) := by
  obtain ⟨s, hs⟩ := Option.isSome_iff_exists.1 h
  rw [hs, runStrict_eq E frames n s hs]

/-- The run goes on with defined behaviour through a frame whose pass erases nothing. -/
theorem runStrict_step (E : Eigen) (frames : Nat → List TagDetection) (n : Nat) (s : State)
    (h : runStrict E frames n = some s) (hne : ¬ erasesEntry (detectionLoop s (frames n))) :
    runStrict E frames (n + 1) = some (frame E s (frames n)).1 ∧
      outputStrict E frames n = some (frame E s (frames n)).2 := by
  simp only [runStrict, outputStrict, h, frameStrict_of_not_erases E s (frames n) hne]
  exact ⟨rfl, rfl⟩

/-- The behaviour of the run is undefined from a frame whose pass erases an entry. -/
theorem runStrict_step_none (E : Eigen) (frames : Nat → List TagDetection) (n : Nat)
    (s : State) (h : runStrict E frames n = some s)
    (he : erasesEntry (detectionLoop s (frames n))) :
    runStrict E frames (n + 1) = none ∧ outputStrict E frames n = none := by
  simp only [runStrict, outputStrict, h, frameStrict_of_erases E s (frames n) he]
  exact ⟨rfl, rfl⟩

theorem runStrict_none_add (E : Eigen) (frames : Nat → List TagDetection) (n : Nat)
    (h : runStrict E frames n = none) (j : Nat) : runStrict E frames (n + j) = none := by
  induction j with
  | zero => exact h
  | succ j ih =>
    rw [← Nat.add_assoc]
    simp only [runStrict, ih]

theorem outputStrict_none_of_run (E : Eigen) (frames : Nat → List TagDetection) (n : Nat)
    (h : runStrict E frames n = none) : outputStrict E frames n = none := by
  simp only [outputStrict, h]

theorem stateAfter_of_run (E : Eigen) (frames : Nat → List TagDetection) (n : Nat)
    (s : State) (h : runStrict E frames n = some s) :
    (frame E s (frames n)).1 = stateAfter E frames n := by
  rw [runStrict_eq E frames n s h]
  rfl

/-- The pass of frame `t+21` erases the entry of a non-reference marker that was detected
in frame `t` and not since. -/
theorem expiry_pass_erases (E : Eigen) (frames : Nat → List TagDetection) (k : Int) (t : Nat)
    (hk : k ≠ referenceTagId) (hdet : detected k (frames t))
    (hnot : ∀ j : Nat, 1 ≤ j → (j : Int) ≤ smoothingFrames + 1 → ¬ detected k (frames (t + j)))
    (s : State) (h : runStrict E frames (t + 21) = some s) :
    erasesEntry (detectionLoop s (frames (t + 21))) := by
  have h20 : ((20 : Nat) : Int) ≤ smoothingFrames := by decide
  have hfind := (eviction_boundary_find E frames k t hk hdet hnot).1 20 h20
  have hs : s = stateAfter E frames (t + 20) := runStrict_eq E frames (t + 21) s h
  have hnd : ¬ detected k (frames (t + 21)) := hnot 21 (by omega) (by decide)
  apply erasesEntry_of_find _ k (-1) hk _ (by decide)
  rw [detectionLoop_lru]
  simp only [ttlAfterDetection, if_neg hnd]
  rw [hs, hfind]
  decide

/-! ## The eviction boundary -/

/-- Claim C1, on the loop as written. For a non-reference marker `k` detected in frame `t`
and in none of the frames `t+1 .. t+21`: `k` is a key of `lru` after each of the frames
`t .. t+20` that the run reaches with defined behaviour; and the behaviour of the run is
never defined through frame `t+21`, whose pass erases the entry of `k` through the iterator
and then increments it. -/
theorem C1_eviction_pass_undefined (E : Eigen) (frames : Nat → List TagDetection) (k : Int)
    (t : Nat) (hk : k ≠ referenceTagId) (hdet : detected k (frames t))
    (hnot : ∀ j : Nat, 1 ≤ j → (j : Int) ≤ smoothingFrames + 1 → ¬ detected k (frames (t + j))) :
    (∀ (j : Nat) (s : State), (j : Int) ≤ smoothingFrames →
        runStrict E frames (t + j + 1) = some s → k ∈ s.lru.keys) ∧
      runStrict E frames (t + (smoothingFrames.toNat + 1) + 1) = none := by
  constructor
  · intro j s hj hs
    rw [runStrict_eq E frames (t + j + 1) s hs]
    exact Map.mem_keys_of_find _ _ _
      ((eviction_boundary_find E frames k t hk hdet hnot).1 j hj)
  · have h20 : smoothingFrames.toNat = 20 := by decide
    rw [h20]
    cases hr : runStrict E frames (t + 21) with
    | none => exact runStrict_none_add E frames (t + 21) hr 1
    | some s =>
      exact (runStrict_step_none E frames (t + 21) s hr
        (expiry_pass_erases E frames k t hk hdet hnot s hr)).1

/-- Claim C1 at marker 5, seen in frame 0 only: the run is defined through frame 20, with
5 a key, and undefined through frame 21. -/
theorem C1_eviction_pass_undefined_witness :
    ((5 : Int) ≠ referenceTagId ∧ detected 5 (onlyFirst5 0) ∧
      (∀ j : Nat, 1 ≤ j → (j : Int) ≤ smoothingFrames + 1 → ¬ detected 5 (onlyFirst5 (0 + j))) ∧
      runStrict exactEigen onlyFirst5 (0 + 20 + 1) = some (stateAfter exactEigen onlyFirst5 20)) ∧
    (5 ∈ (stateAfter exactEigen onlyFirst5 20).lru.keys ∧
      runStrict exactEigen onlyFirst5 (0 + (smoothingFrames.toNat + 1) + 1) = none) :=
  have h1 : (5 : Int) ≠ referenceTagId := by decide
  have h2 : detected 5 (onlyFirst5 0) := by decide
  have h3 : ∀ j : Nat, 1 ≤ j → (j : Int) ≤ smoothingFrames + 1 →
      ¬ detected 5 (onlyFirst5 (0 + j)) := by
    intro j hj _
    have hj0 : ¬ (j = 0) := by omega
    simp [onlyFirst5, hj0, detected]
  have h4 : runStrict exactEigen onlyFirst5 (0 + 20 + 1)
      = some (stateAfter exactEigen onlyFirst5 20) :=
    runStrict_of_isSome exactEigen onlyFirst5 21 (by decide)
  ⟨⟨h1, h2, h3, h4⟩,
    (C1_eviction_pass_undefined exactEigen onlyFirst5 5 0 h1 h2 h3).1 20
      (stateAfter exactEigen onlyFirst5 20) (by decide) h4,
    (C1_eviction_pass_undefined exactEigen onlyFirst5 5 0 h1 h2 h3).2⟩

/-! ## The Reference-Lost message and the report lines -/

/-- Claim C3, as stated, fails. With the reference seen in frame 0 only, no pass of the
frames 0 to 40 erases an entry; the ttl of the reference is 0 after frame 19 and -1 after
each of the frames 20 to 40, one contiguous interval in which it is not live; the frame of
the transition (20) and the next one (21) print no Reference-Lost message, and the frames
30 and 40 of that one interval both print it. -/
theorem C3_counterexample :
    runStrict exactEigen onlyFirst2 41 = some (stateAfter exactEigen onlyFirst2 40) ∧
    (stateAfter exactEigen onlyFirst2 19).lru.find referenceTagId = some 0 ∧
    (∀ n ∈ List.range' 20 21,
      (stateAfter exactEigen onlyFirst2 n).lru.find referenceTagId = some (-1)) ∧
    List.countP Output.isReferenceLost (outputOf exactEigen onlyFirst2 20) = 0 ∧
    List.countP Output.isReferenceLost (outputOf exactEigen onlyFirst2 21) = 0 ∧
    List.countP Output.isReferenceLost (outputOf exactEigen onlyFirst2 30) = 1 ∧
    List.countP Output.isReferenceLost (outputOf exactEigen onlyFirst2 40) = 1 := by
  refine ⟨runStrict_of_isSome exactEigen onlyFirst2 41 (by decide),
    by decide, by decide, by decide, by decide, by decide, by decide⟩

/-- Claim C3, amended. In a frame `n` whose pass erases no entry the Reference-Lost message
is level-triggered and rate-limited: the frame has defined behaviour and prints the message
once when `n mod 10 = 0` and the reference entry, between the two loops of the frame, has a
negative ttl; otherwise it does not print it. -/
theorem C3_reference_lost_rate_limited (E : Eigen) (frames : Nat → List TagDetection) (n : Nat)
    (s : State) (hrun : runStrict E frames n = some s)
    (hne : ¬ erasesEntry (detectionLoop s (frames n))) :
    ∃ out, outputStrict E frames n = some out ∧
      List.countP Output.isReferenceLost out =
        match (detectionLoop s (frames n)).lru.find referenceTagId with
        | some v => if v < 0 ∧ n % 10 = 0 then 1 else 0
        | none => 0 := by
  refine ⟨_, (runStrict_step E frames n s hrun hne).2, ?_⟩
  have hs := runStrict_eq E frames n s hrun
  subst hs
  exact outputOf_referenceLost_count E frames n

/-- Claim C3, amended, in frame 30 of the run that sees the reference in frame 0 only: the
message is printed once. -/
theorem C3_reference_lost_rate_limited_witness :
    (runStrict exactEigen onlyFirst2 30 = some (stateBefore exactEigen onlyFirst2 30) ∧
      ¬ erasesEntry (detectionLoop (stateBefore exactEigen onlyFirst2 30) (onlyFirst2 30)) ∧
      (detectionLoop (stateBefore exactEigen onlyFirst2 30) (onlyFirst2 30)).lru.find
        referenceTagId = some (-1)) ∧
    (∃ out, outputStrict exactEigen onlyFirst2 30 = some out ∧
      List.countP Output.isReferenceLost out =
        match (detectionLoop (stateBefore exactEigen onlyFirst2 30) (onlyFirst2 30)).lru.find
          referenceTagId with
        | some v => if v < 0 ∧ 30 % 10 = 0 then 1 else 0
        | none => 0) :=
  have h1 : runStrict exactEigen onlyFirst2 30 = some (stateBefore exactEigen onlyFirst2 30) :=
    runStrict_of_isSome exactEigen onlyFirst2 30 (by decide)
  have h2 : ¬ erasesEntry
      (detectionLoop (stateBefore exactEigen onlyFirst2 30) (onlyFirst2 30)) := by decide
  ⟨⟨h1, h2, by decide⟩,
    C3_reference_lost_rate_limited exactEigen onlyFirst2 30
      (stateBefore exactEigen onlyFirst2 30) h1 h2⟩

/-- Claim C6, as stated, fails: frame 0 of the scenario, whose pass erases no entry, prints
a line whose id is the reference tag. -/
theorem C6_counterexample :
    outputStrict exactEigen scenario 0 = some (outputOf exactEigen scenario 0) ∧
    Output.line referenceTagId 0 0 0 0 ∈ outputOf exactEigen scenario 0 :=
  ⟨(runStrict_step exactEigen scenario 0 State.initial rfl (by decide)).2,
    by with_unfolding_all decide⟩

/-- Claim C6, amended. A frame `n` whose pass erases no entry has defined behaviour; when
`n mod 10 = 0` it prints exactly one line for each id whose ttl between the two loops is
not negative, the reference tag included, and no line for any other id; when
`n mod 10 ≠ 0` it prints no line. -/
theorem C6_one_line_per_live_entry (E : Eigen) (frames : Nat → List TagDetection) (n : Nat)
    (s : State) (k : Int) (hrun : runStrict E frames n = some s)
    (hne : ¬ erasesEntry (detectionLoop s (frames n))) :
    ∃ out, outputStrict E frames n = some out ∧
      List.countP (Output.isLineFor k) out =
        match (detectionLoop s (frames n)).lru.find k with
        | some v => if 0 ≤ v ∧ n % 10 = 0 then 1 else 0
        | none => 0 := by
  refine ⟨_, (runStrict_step E frames n s hrun hne).2, ?_⟩
  have hs := runStrict_eq E frames n s hrun
  subst hs
  exact outputOf_isLineFor_count E frames n k

/-- Claim C6, amended, in frame 0 of the scenario, for the reference tag: one line. -/
theorem C6_one_line_per_live_entry_witness :
    (runStrict exactEigen scenario 0 = some State.initial ∧
      ¬ erasesEntry (detectionLoop State.initial (scenario 0)) ∧
      (detectionLoop State.initial (scenario 0)).lru.find referenceTagId = some 20) ∧
    (∃ out, outputStrict exactEigen scenario 0 = some out ∧
      List.countP (Output.isLineFor referenceTagId) out =
        match (detectionLoop State.initial (scenario 0)).lru.find referenceTagId with
        | some v => if 0 ≤ v ∧ 0 % 10 = 0 then 1 else 0
        | none => 0) :=
  have h2 : ¬ erasesEntry (detectionLoop State.initial (scenario 0)) := by decide
  ⟨⟨rfl, h2, by decide⟩,
    C6_one_line_per_live_entry exactEigen scenario 0 State.initial referenceTagId rfl h2⟩

/-! ## The ttl after a frame -/

/-- Claim C7, as stated, fails: marker 5, detected in a frame whose pass erases no entry,
ends that frame with ttl 19, not `smoothingFrames`. -/
theorem C7_counterexample :
    detected 5 [det5] ∧
    frameStrict exactEigen State.initial [det5] = some (frame exactEigen State.initial [det5]) ∧
    (frame exactEigen State.initial [det5]).1.lru.find 5 = some 19 ∧
    (frame exactEigen State.initial [det5]).1.lru.find 5 ≠ some smoothingFrames := by
  refine ⟨by decide, frameStrict_of_not_erases exactEigen State.initial [det5] (by decide),
    by decide, by decide⟩

/-- Claim C7, amended. An id detected in a frame is aged by the pass of that same frame:
from every state, a frame whose pass erases no entry has defined behaviour and leaves the
ttl of each detected id at `smoothingFrames - 1`. -/
theorem C7_detected_ends_at_19 (E : Eigen) (s : State) (ds : List TagDetection) (k : Int)
    (h : detected k ds) (hne : ¬ erasesEntry (detectionLoop s ds)) :
    ∃ r, frameStrict E s ds = some r ∧ r.1.lru.find k = some (smoothingFrames - 1) :=
  ⟨frame E s ds, frameStrict_of_not_erases E s ds hne, frame_ttl_of_detected E s ds k h⟩

/-- Claim C7, amended, for marker 5 detected from the initial state. -/
theorem C7_detected_ends_at_19_witness :
    (detected 5 [det5] ∧ ¬ erasesEntry (detectionLoop State.initial [det5])) ∧
    (∃ r, frameStrict exactEigen State.initial [det5] = some r ∧
      r.1.lru.find 5 = some (smoothingFrames - 1)) :=
  ⟨⟨by decide, by decide⟩,
    C7_detected_ends_at_19 exactEigen State.initial [det5] 5 (by decide) (by decide)⟩

/-- Claim C9, as stated, fails: marker 5, seen in frame 0 only, is in the table after
frame 20 with ttl -1; no pass of the frames 0 to 20 erases an entry. -/
theorem C9_counterexample :
    (5 : Int) ≠ referenceTagId ∧
    runStrict exactEigen onlyFirst5 21 = some (stateAfter exactEigen onlyFirst5 20) ∧
    (stateAfter exactEigen onlyFirst5 20).lru.find 5 = some (-1) := by
  refine ⟨by decide, runStrict_of_isSome exactEigen onlyFirst5 21 (by decide), by decide⟩

/-- Claim C9, amended. A frame whose pass erases no entry has defined behaviour, and after
it the ttl of every non-reference entry is at least -1: an entry read with ttl 0 is
decremented to -1 and stays in the table. -/
theorem C9_nonreference_ttl_bound (E : Eigen) (frames : Nat → List TagDetection) (n : Nat)
    (s : State) (hrun : runStrict E frames n = some s)
    (hne : ¬ erasesEntry (detectionLoop s (frames n))) :
    ∃ s', runStrict E frames (n + 1) = some s' ∧
      (∀ k v, k ≠ referenceTagId → s'.lru.find k = some v → -1 ≤ v) ∧
      (∀ k, k ≠ referenceTagId → (detectionLoop s (frames n)).lru.find k = some 0 →
        s'.lru.find k = some (-1)) := by
  refine ⟨_, (runStrict_step E frames n s hrun hne).1, ?_, ?_⟩
  · intro k v hk hv
    rw [stateAfter_of_run E frames n s hrun] at hv
    exact (tracked_since E frames k hk n v hv).1
  · intro k hk h0
    rw [frame_lru, ← detectionLoop_lru, h0]
    rfl

/-- Claim C9, amended, in frame 20 of the run that sees marker 5 in frame 0 only: read
with ttl 0, in the table with ttl -1 afterwards. -/
theorem C9_nonreference_ttl_bound_witness :
    (runStrict exactEigen onlyFirst5 20 = some (stateBefore exactEigen onlyFirst5 20) ∧
      ¬ erasesEntry (detectionLoop (stateBefore exactEigen onlyFirst5 20) (onlyFirst5 20)) ∧
      (5 : Int) ≠ referenceTagId ∧
      (detectionLoop (stateBefore exactEigen onlyFirst5 20) (onlyFirst5 20)).lru.find 5
        = some 0) ∧
    (∃ s', runStrict exactEigen onlyFirst5 (20 + 1) = some s' ∧
      (∀ k v, k ≠ referenceTagId → s'.lru.find k = some v → -1 ≤ v) ∧
      (∀ k, k ≠ referenceTagId →
        (detectionLoop (stateBefore exactEigen onlyFirst5 20) (onlyFirst5 20)).lru.find k
          = some 0 → s'.lru.find k = some (-1))) :=
  have h1 : runStrict exactEigen onlyFirst5 20 = some (stateBefore exactEigen onlyFirst5 20) :=
    runStrict_of_isSome exactEigen onlyFirst5 20 (by decide)
  have h2 : ¬ erasesEntry
      (detectionLoop (stateBefore exactEigen onlyFirst5 20) (onlyFirst5 20)) := by decide
  ⟨⟨h1, h2, by decide, by decide⟩,
    C9_nonreference_ttl_bound exactEigen onlyFirst5 20 (stateBefore exactEigen onlyFirst5 20)
      h1 h2⟩

/-- Claim C10, on the loop as written. A frame whose pass erases no entry prints no line
for an id that is absent from the table at the pass. A frame whose pass finds a
non-reference entry with a negative ttl, that is, a frame that evicts a marker, has
undefined behaviour; so for a non-reference marker detected in frame 0 and never again,
no frame `n >= 21` has a defined output. -/
theorem C10_eviction_frame_undefined (E : Eigen) :
    (∀ (s : State) (ds : List TagDetection) (k : Int),
      ¬ erasesEntry (detectionLoop s ds) → (detectionLoop s ds).lru.find k = none →
      ∃ r, frameStrict E s ds = some r ∧ List.countP (Output.isLineFor k) r.2 = 0) ∧
    (∀ (s : State) (ds : List TagDetection) (k : Int) (v : Int), k ≠ referenceTagId →
      (detectionLoop s ds).lru.find k = some v → v < 0 → frameStrict E s ds = none) ∧
    (∀ (frames : Nat → List TagDetection) (k : Int), k ≠ referenceTagId →
      detected k (frames 0) → (∀ m, 1 ≤ m → ¬ detected k (frames m)) →
      ∀ n, 21 ≤ n → outputStrict E frames n = none) := by
  refine ⟨?_, ?_, ?_⟩
  · intro s ds k hne hk
    refine ⟨frame E s ds, frameStrict_of_not_erases E s ds hne, ?_⟩
    rw [frame_countP_isLineFor, hk]
  · intro s ds k v hk hv hneg
    exact frameStrict_of_erases E s ds (erasesEntry_of_find _ k v hk hv hneg)
  · intro frames k hk hdet hnot n hn
    have herase : ∀ s, runStrict E frames (0 + 21) = some s →
        erasesEntry (detectionLoop s (frames (0 + 21))) :=
      expiry_pass_erases E frames k 0 hk hdet
        (fun j h1 _ => by rw [Nat.zero_add]; exact hnot j h1)
    rw [Nat.zero_add] at herase
    have h22 : runStrict E frames 22 = none := by
      cases hr : runStrict E frames 21 with
      | none => exact runStrict_none_add E frames 21 hr 1
      | some s => exact (runStrict_step_none E frames 21 s hr (herase s hr)).1
    by_cases h21 : n = 21
    · subst h21
      cases hr : runStrict E frames 21 with
      | none => exact outputStrict_none_of_run E frames 21 hr
      | some s => exact (runStrict_step_none E frames 21 s hr (herase s hr)).2
    · obtain ⟨j, rfl⟩ : ∃ j, n = 22 + j := ⟨n - 22, by omega⟩
      exact outputStrict_none_of_run E frames (22 + j) (runStrict_none_add E frames 22 h22 j)

/-- Claim C10 for marker 5, seen in frame 0 only: frame 20 prints its line, the frame 21,
whose pass finds it with ttl -1, has undefined behaviour, and frame 30 has no defined
output. -/
theorem C10_eviction_frame_undefined_witness :
    (runStrict exactEigen onlyFirst5 21 = some (stateBefore exactEigen onlyFirst5 21) ∧
      List.countP (Output.isLineFor 5) (outputOf exactEigen onlyFirst5 20) = 1 ∧
      (5 : Int) ≠ referenceTagId ∧
      (detectionLoop (stateBefore exactEigen onlyFirst5 21) (onlyFirst5 21)).lru.find 5
        = some (-1) ∧ (-1 : Int) < 0 ∧
      detected 5 (onlyFirst5 0) ∧ (∀ m, 1 ≤ m → ¬ detected 5 (onlyFirst5 m)) ∧ 21 ≤ 30) ∧
    (frameStrict exactEigen (stateBefore exactEigen onlyFirst5 21) (onlyFirst5 21) = none ∧
      outputStrict exactEigen onlyFirst5 30 = none) :=
  have h0 : runStrict exactEigen onlyFirst5 21 = some (stateBefore exactEigen onlyFirst5 21) :=
    runStrict_of_isSome exactEigen onlyFirst5 21 (by decide)
  have h1 : (detectionLoop (stateBefore exactEigen onlyFirst5 21) (onlyFirst5 21)).lru.find 5
      = some (-1) := by decide
  have h2 : (5 : Int) ≠ referenceTagId := by decide
  have h3 : detected 5 (onlyFirst5 0) := by decide
  have h4 : ∀ m, 1 ≤ m → ¬ detected 5 (onlyFirst5 m) := by
    intro m hm
    have hm0 : ¬ (m = 0) := by omega
    simp [onlyFirst5, hm0, detected]
  ⟨⟨h0, by decide, h2, h1, by decide, h3, h4, by decide⟩,
    (C10_eviction_frame_undefined exactEigen).2.1 (stateBefore exactEigen onlyFirst5 21)
      (onlyFirst5 21) 5 (-1) h2 h1 (by decide),
    (C10_eviction_frame_undefined exactEigen).2.2 onlyFirst5 5 h2 h3 h4 30 (by decide)⟩

/-- Claim C11, on the loop as written. From a table without a non-reference entry of
negative ttl, the frame with no detections has defined behaviour, takes 1 off the ttl of
every live entry and adds no id. From the table `(2,4), (5,-1), (7,4)`, reached before
frame 21 of the run that sees marker 5 in frame 0 and markers 2 and 7 in frame 5, the frame
with no detections erases the entry of 5 and has undefined behaviour. -/
theorem C11_empty_frame :
    (∀ (E : Eigen) (s : State) (k : Int) (v : Int), ¬ erasesEntry s →
      s.lru.find k = some v → 0 ≤ v →
      ∃ r, frameStrict E s [] = some r ∧ r.1.lru.find k = some (v - 1) ∧
        ∀ j, j ∈ r.1.lru.keys → j ∈ s.lru.keys) ∧
    (runStrict exactEigen staggered 21 = some (stateBefore exactEigen staggered 21) ∧
      (stateBefore exactEigen staggered 21).lru.entries = [(2, 4), (5, -1), (7, 4)] ∧
      staggered 21 = [] ∧
      frameStrict exactEigen (stateBefore exactEigen staggered 21) [] = none ∧
      runStrict exactEigen staggered 22 = none) := by
  constructor
  · intro E s k v hne h hv
    obtain ⟨h1, h2⟩ := frame_empty_ages_by_one E s k v h hv
    exact ⟨frame E s [], frameStrict_of_not_erases E s [] hne, h1, h2⟩
  · refine ⟨runStrict_of_isSome exactEigen staggered 21 (by decide), by decide, rfl,
      frameStrict_of_erases exactEigen _ [] (by decide),
      Option.not_isSome_iff_eq_none.1 (by decide)⟩

/-- Claim C11 on the table that holds marker 5 with ttl 0 (before frame 20 of the run that
sees it in frame 0 only): the frame with no detections leaves it in the table with ttl -1. -/
theorem C11_empty_frame_witness :
    (¬ erasesEntry (stateBefore exactEigen onlyFirst5 20) ∧
      (stateBefore exactEigen onlyFirst5 20).lru.find 5 = some 0 ∧ (0 : Int) ≤ 0) ∧
    (∃ r, frameStrict exactEigen (stateBefore exactEigen onlyFirst5 20) [] = some r ∧
      r.1.lru.find 5 = some (0 - 1) ∧
      ∀ j, j ∈ r.1.lru.keys → j ∈ (stateBefore exactEigen onlyFirst5 20).lru.keys) :=
  have h1 : ¬ erasesEntry (stateBefore exactEigen onlyFirst5 20) := by decide
  have h2 : (stateBefore exactEigen onlyFirst5 20).lru.find 5 = some 0 := by decide
  ⟨⟨h1, h2, le_refl _⟩,
    C11_empty_frame.1 exactEigen (stateBefore exactEigen onlyFirst5 20) 5 0 h1 h2 (le_refl _)⟩

/-! ## The size of the table and the range of the ttl, on the loop as written -/

/-- Claim C13, as stated, fails: with markers 2 and 5 seen in frame 0 only, no pass of the
frames 0 to 20 erases an entry, the table after frame 20 holds both ids, and no id is
detected in the frames 1 to 20. -/
theorem C13_counterexample :
    runStrict exactEigen bothFirst 21 = some (stateAfter exactEigen bothFirst 20) ∧
    (stateAfter exactEigen bothFirst 20).lru.keys = [2, 5] ∧
    distinctDetected bothFirst (20 - 19) 20 = 0 ∧
    ¬ ((stateAfter exactEigen bothFirst 20).lru.keys.length
        ≤ distinctDetected bothFirst (20 - 19) 20 + 1) := by
  refine ⟨runStrict_of_isSome exactEigen bothFirst 21 (by decide),
    by decide, by decide, by decide⟩

/-- Claim C13, amended. A frame `n` whose pass erases no entry has defined behaviour, and
after it the number of ids in `lru` is at most the number of distinct ids detected in the
last `SMOOTHING_FRAMES + 1` frames (`n-20 .. n`), plus one for the reference entry. -/
theorem C13_table_size_bound (E : Eigen) (frames : Nat → List TagDetection) (n : Nat)
    (s : State) (hrun : runStrict E frames n = some s)
    (hne : ¬ erasesEntry (detectionLoop s (frames n))) :
    ∃ s', runStrict E frames (n + 1) = some s' ∧
      s'.lru.keys.length ≤ distinctDetected frames (n - (smoothingFrames.toNat)) n + 1 := by
  refine ⟨_, (runStrict_step E frames n s hrun hne).1, ?_⟩
  rw [stateAfter_of_run E frames n s hrun]
  exact stateAfter_size_bound E frames n

/-- Claim C13, amended, after frame 20 of the run that sees markers 2 and 5 in frame 0
only: two ids in the table, two distinct ids detected in the frames 0 to 20. -/
theorem C13_table_size_bound_witness :
    (runStrict exactEigen bothFirst 20 = some (stateBefore exactEigen bothFirst 20) ∧
      ¬ erasesEntry (detectionLoop (stateBefore exactEigen bothFirst 20) (bothFirst 20)) ∧
      distinctDetected bothFirst (20 - (smoothingFrames.toNat)) 20 = 2) ∧
    (∃ s', runStrict exactEigen bothFirst (20 + 1) = some s' ∧
      s'.lru.keys.length ≤ distinctDetected bothFirst (20 - (smoothingFrames.toNat)) 20 + 1) :=
  have h1 : runStrict exactEigen bothFirst 20 = some (stateBefore exactEigen bothFirst 20) :=
    runStrict_of_isSome exactEigen bothFirst 20 (by decide)
  have h2 : ¬ erasesEntry
      (detectionLoop (stateBefore exactEigen bothFirst 20) (bothFirst 20)) := by decide
  ⟨⟨h1, h2, by decide⟩,
    C13_table_size_bound exactEigen bothFirst 20 (stateBefore exactEigen bothFirst 20) h1 h2⟩

/-- Claim C18, on the loop as written. In a run from the empty table, a frame whose pass
erases no entry has defined behaviour, and after it every ttl is between -1 and
`SMOOTHING_FRAMES - 1`, each id detected in the frame has ttl `SMOOTHING_FRAMES - 1`, and a
reference entry that had ttl -1 and was not detected still has ttl -1. In the run that sees
marker 5 in frame 0 and marker 7 in frame 21, the pass of frame 21, in which 7 is detected,
erases the entry of 5: the frame has undefined behaviour. -/
theorem C18_ttl_range_defined_passes :
    (∀ (E : Eigen) (frames : Nat → List TagDetection) (n : Nat) (s : State),
      runStrict E frames n = some s → ¬ erasesEntry (detectionLoop s (frames n)) →
      ∃ s', runStrict E frames (n + 1) = some s' ∧
        (∀ k v, s'.lru.find k = some v → -1 ≤ v ∧ v ≤ smoothingFrames - 1) ∧
        (∀ k, detected k (frames n) → s'.lru.find k = some (smoothingFrames - 1)) ∧
        (s.lru.find referenceTagId = some (-1) → ¬ detected referenceTagId (frames n) →
          s'.lru.find referenceTagId = some (-1))) ∧
    (runStrict exactEigen late7 21 = some (stateBefore exactEigen late7 21) ∧
      detected 7 (late7 21) ∧
      (detectionLoop (stateBefore exactEigen late7 21) (late7 21)).lru.entries
        = [(5, -1), (7, 20)] ∧
      frameStrict exactEigen (stateBefore exactEigen late7 21) (late7 21) = none ∧
      runStrict exactEigen late7 22 = none) := by
  constructor
  · intro E frames n s hrun hne
    refine ⟨_, (runStrict_step E frames n s hrun hne).1, ?_, ?_, ?_⟩
    · intro k v hv
      rw [stateAfter_of_run E frames n s hrun] at hv
      exact ttl_bounds E frames k n v hv
    · intro k hd
      exact frame_ttl_of_detected E s (frames n) k hd
    · intro hr hnd
      rw [frame_lru]
      simp only [ttlAfterDetection, if_neg hnd, hr]
      rfl
  · refine ⟨runStrict_of_isSome exactEigen late7 21 (by decide), by decide, by decide,
      frameStrict_of_erases exactEigen _ _ (by decide),
      Option.not_isSome_iff_eq_none.1 (by decide)⟩

/-- Claim C18 in frame 21 of the run that sees the reference in frame 0 only: defined, and
the ttl of the reference, -1 before the frame, is -1 after it. -/
theorem C18_ttl_range_defined_passes_witness :
    (runStrict exactEigen onlyFirst2 21 = some (stateBefore exactEigen onlyFirst2 21) ∧
      ¬ erasesEntry (detectionLoop (stateBefore exactEigen onlyFirst2 21) (onlyFirst2 21)) ∧
      (stateBefore exactEigen onlyFirst2 21).lru.find referenceTagId = some (-1) ∧
      ¬ detected referenceTagId (onlyFirst2 21)) ∧
    (∃ s', runStrict exactEigen onlyFirst2 (21 + 1) = some s' ∧
      (∀ k v, s'.lru.find k = some v → -1 ≤ v ∧ v ≤ smoothingFrames - 1) ∧
      (∀ k, detected k (onlyFirst2 21) → s'.lru.find k = some (smoothingFrames - 1)) ∧
      ((stateBefore exactEigen onlyFirst2 21).lru.find referenceTagId = some (-1) →
        ¬ detected referenceTagId (onlyFirst2 21) →
        s'.lru.find referenceTagId = some (-1))) :=
  have h1 : runStrict exactEigen onlyFirst2 21 = some (stateBefore exactEigen onlyFirst2 21) :=
    runStrict_of_isSome exactEigen onlyFirst2 21 (by decide)
  have h2 : ¬ erasesEntry
      (detectionLoop (stateBefore exactEigen onlyFirst2 21) (onlyFirst2 21)) := by decide
  ⟨⟨h1, h2, by decide, by decide⟩,
    C18_ttl_range_defined_passes.1 exactEigen onlyFirst2 21
      (stateBefore exactEigen onlyFirst2 21) h1 h2⟩

end AprilTag
